import Mathlib

/-!
Verification development for the Butane security-rules compiler
(`src/rules.js`, `src/util.js` and the driver in `src/index.js`).

The JavaScript source is shallowly embedded as follows.

* Plain JavaScript data (the rule tree read from YAML, the options object
  built by `getOptions`, the `.refs` / `.functions` maps) is embedded as the
  type `JV` of JSON-like values: association lists model object fields in
  insertion order, and `jundef` models the JavaScript value `undefined`.
  Arrays never occur in a YAML rule document, but they do occur inside
  expanded function definitions (the `args` array), so `JV` has an array
  constructor as well.  Lodash helpers (`pick`, `merge`) and the raw
  JavaScript operations (`delete`, property access, `Object.keys`,
  truthiness, string coercion) are embedded one by one next to the places
  that use them.  Operations that throw a `TypeError` in the source (for
  instance a property write on a primitive in strict mode, or a property
  read on `null`/`undefined`) are modelled with `Option`, `none` standing
  for an abrupt termination of the whole conversion.

* Expression syntax trees produced by esprima are embedded as the typed
  AST `Expr` (identifiers, static and computed member access, calls,
  binary/logical operators, unary operators, literals) - exactly the
  expression grammar documented for the tool.  `parseExpression` is an
  executable tokenizer/recursive-descent parser for that grammar and
  `stringifyAst` the matching escodegen-style printer; the reflective
  `for (child of Object.entries(node))` walks of the source are translated
  constructor by constructor, preserving the field order of esprima nodes
  (`object` before `property`, `callee` before `arguments`, `left` before
  `right`) and the special cases each walker applies (skipping `property`
  children, skipping `callee` children, skipping arrays).

* Functions that may recurse through re-parsed strings
  (`replaceFunctions`, the parser itself) take an explicit fuel argument;
  the JavaScript original has no such bound and simply diverges on cyclic
  `.functions` declarations.
-/

namespace Butane

mutual
/-- JavaScript values, as produced by the YAML loader and manipulated by
`getOptions`: primitives, objects (ordered field lists) and arrays. -/
inductive JV where
  | jundef : JV
  | jnull : JV
  | jbool (b : Bool) : JV
  | jnum (n : Int) : JV
  | jstr (s : String) : JV
  | jobj (fs : JFields) : JV
  | jarr (es : JElems) : JV
  deriving DecidableEq
inductive JFields where
  | nil : JFields
  | cons (k : String) (v : JV) (rest : JFields) : JFields
  deriving DecidableEq
inductive JElems where
  | nil : JElems
  | cons (v : JV) (rest : JElems) : JElems
  deriving DecidableEq
end

namespace JFields

/-- First-occurrence association lookup, the semantics of reading a
property of a plain JavaScript object. -/
def lookup : JFields → String → Option JV
  | nil, _ => none
  | cons k v rest, key => if k = key then some v else lookup rest key

/-- The keys of an object, in insertion order (`Object.keys`). -/
def keys : JFields → List String
  | nil => []
  | cons k _ rest => k :: keys rest

/-- Remove every field with the given key (`delete obj[key]`). -/
def erase : JFields → String → JFields
  | nil, _ => nil
  | cons k v rest, key => if k = key then erase rest key else cons k v (erase rest key)

/-- Replace the value of the first field with the given key, or append the
field if the key is absent (`obj[key] = v`). -/
def set : JFields → String → JV → JFields
  | nil, key, v => cons key v nil
  | cons k w rest, key, v =>
    if k = key then cons k v rest else cons k w (set rest key v)

/-- Replace the value of the first field with the given key by applying
`f` to its current value; append `dflt` if the key is absent.  Used to
express the in-place update performed by lodash `merge`. -/
def updateWith : JFields → String → (JV → JV) → JV → JFields
  | nil, key, _, dflt => cons key dflt nil
  | cons k w rest, key, f, dflt =>
    if k = key then cons k (f w) rest else cons k w (updateWith rest key f dflt)

end JFields

namespace JElems

def toList : JElems → List JV
  | nil => []
  | cons v rest => v :: toList rest

def length : JElems → Nat
  | nil => 0
  | cons _ rest => length rest + 1

end JElems

/-- Strict equality `===` between JavaScript values.  Objects and arrays
compare by reference in JavaScript; two independently built objects are
never identical, so the embedding conservatively returns `false` for
them (no comparison in the source ever compares an object against
itself through two aliases). -/
def jvStrictEq : JV → JV → Bool
  | JV.jundef, JV.jundef => true
  | JV.jnull, JV.jnull => true
  | JV.jbool a, JV.jbool b => a = b
  | JV.jnum a, JV.jnum b => a = b
  | JV.jstr a, JV.jstr b => a = b
  | _, _ => false

/-- JavaScript truthiness of a value (`if (parent) ...`). -/
def jvTruthy : JV → Bool
  | JV.jundef => false
  | JV.jnull => false
  | JV.jbool b => b
  | JV.jnum n => n ≠ 0
  | JV.jstr s => s ≠ ""
  | JV.jobj _ => true
  | JV.jarr _ => true

/-- Decimal digits of a natural number; fuel-driven so that it reduces
definitionally. -/
def natDigits : Nat → Nat → String
  | 0, _ => ""
  | fuel + 1, n =>
    if n < 10 then String.singleton (Char.ofNat (48 + n))
    else natDigits fuel (n / 10) ++ String.singleton (Char.ofNat (48 + n % 10))

/-- Decimal rendering of an integer, as JavaScript `String(n)` renders
the (integral) numbers appearing in rule documents. -/
def jsIntRepr (n : Int) : String :=
  if n < 0 then "-" ++ natDigits (n.natAbs + 1) n.natAbs
  else natDigits (n.natAbs + 1) n.natAbs

/-- JavaScript string coercion `String(v)` (used by template literals and
by esprima when handed a non-string). -/
def jvToString : JV → String
  | JV.jundef => "undefined"
  | JV.jnull => "null"
  | JV.jbool b => if b then "true" else "false"
  | JV.jnum n => jsIntRepr n
  | JV.jstr s => s
  | JV.jobj _ => "[object Object]"
  | JV.jarr es => arrBody es
where
  /-- `Array.prototype.toString`: elements joined with commas,
  `null`/`undefined` elements rendering as the empty string. -/
  arrBody : JElems → String
  | JElems.nil => ""
  | JElems.cons JV.jundef JElems.nil => ""
  | JElems.cons JV.jnull JElems.nil => ""
  | JElems.cons v JElems.nil => jvToString v
  | JElems.cons JV.jundef rest => "," ++ arrBody rest
  | JElems.cons JV.jnull rest => "," ++ arrBody rest
  | JElems.cons v rest => jvToString v ++ "," ++ arrBody rest

/-- Reading a property of an arbitrary JavaScript value (`base[key]`):
`none` models the `TypeError` thrown for a `null`/`undefined` base,
`jundef` a missing property; properties of primitives other than the
ones the source ever reads are absent on the wrapper objects. -/
def jvGet : JV → String → Option JV
  | JV.jundef, _ => none
  | JV.jnull, _ => none
  | JV.jobj fs, key => some ((fs.lookup key).getD JV.jundef)
  | _, _ => some JV.jundef

/-- Writing a property of an arbitrary JavaScript value
(`base[key] = v`).  The modules are ES modules, hence strict mode: a
write to a primitive throws a `TypeError` (`none`).  A string-keyed
write on an array is representable in JavaScript but is not modelled
(rule documents contain no arrays), so it is also mapped to `none`. -/
def jvSet : JV → String → JV → Option JV
  | JV.jobj fs, key, v => some (JV.jobj (fs.set key v))
  | _, _, _ => none

/-- `Object.keys` of an arbitrary value: field names for objects, index
strings for arrays and strings, nothing for other primitives. -/
def jvKeys : JV → List String
  | JV.jobj fs => fs.keys
  | JV.jarr es => indexKeys 0 es.toList.length
  | JV.jstr s => indexKeys 0 s.length
  | _ => []
where
  indexKeys : Nat → Nat → List String
  | _, 0 => []
  | i, n + 1 => natDigits (i + 1) i :: indexKeys (i + 1) n

/-- The wildcard test `/^\$/.test(key)`. -/
def startsWithDollar (s : String) : Bool :=
  match s.data with
  | c :: _ => c = '$'
  | [] => false

mutual
/-- lodash `merge`, source-driven: source fields are merged into the
destination in place (existing destination keys keep their position, new
keys are appended in source order), plain objects merge recursively,
arrays merge index-wise, any other source value overwrites, and an
`undefined` source value is skipped. -/
def mergeJV : JV → JV → JV
  | dest, JV.jobj sfs =>
    (match dest with
     | JV.jobj dfs => JV.jobj (mergeInto dfs sfs)
     | _ => JV.jobj (mergeInto JFields.nil sfs))
  | dest, JV.jarr ses =>
    (match dest with
     | JV.jarr des => JV.jarr (mergeElems des.toList ses)
     | _ => JV.jarr (mergeElems [] ses))
  | dest, JV.jundef => dest
  | _, s => s
def mergeInto : JFields → JFields → JFields
  | dfs, JFields.nil => dfs
  | dfs, JFields.cons k sv rest =>
    mergeInto (dfs.updateWith k (fun dv => mergeJV dv sv) (mergeJV JV.jundef sv)) rest
def mergeElems : List JV → JElems → JElems
  | ds, JElems.nil => listToElems ds
  | [], JElems.cons sv rest => JElems.cons (mergeJV JV.jundef sv) (mergeElems [] rest)
  | d :: ds, JElems.cons sv rest => JElems.cons (mergeJV d sv) (mergeElems ds rest)
def listToElems : List JV → JElems
  | [] => JElems.nil
  | v :: vs => JElems.cons v (listToElems vs)
end

/-- Values of esprima `Literal` nodes.  `lundef` is the value of the
literal node `{type:'Literal', value:undefined}` that
`replaceChildSyntax` manufactures when a computed property is neither an
identifier, a literal nor a member expression. -/
inductive LitV where
  | lstr (s : String) : LitV
  | lnum (n : Int) : LitV
  | lbool (b : Bool) : LitV
  | lnull : LitV
  | lundef : LitV
  deriving DecidableEq

mutual
/-- Esprima expression nodes for the expression grammar the tool
supports: identifiers, static (`a.b`) and computed (`a[b]`) member
access, call expressions, binary/logical operators (uniform, as every
walker in the source treats them uniformly through `Object.entries`),
unary operators and literals.  Field order of the JavaScript nodes
(relevant to the reflective walks) is `object` before `property`,
`callee` before `arguments`, `left` before `right`. -/
inductive Expr where
  | ident (name : String) : Expr
  | lit (v : LitV) : Expr
  | member (obj : Expr) (prop : Expr) (computed : Bool) : Expr
  | call (callee : Expr) (args : ExprList) : Expr
  | binop (op : String) (l : Expr) (r : Expr) : Expr
  | unop (op : String) (arg : Expr) : Expr
  deriving DecidableEq
inductive ExprList where
  | nil : ExprList
  | cons (e : Expr) (rest : ExprList) : ExprList
  deriving DecidableEq
end

namespace ExprList

def get? : ExprList → Nat → Option Expr
  | nil, _ => none
  | cons e _, 0 => some e
  | cons _ rest, n + 1 => get? rest n

def length : ExprList → Nat
  | nil => 0
  | cons _ rest => length rest + 1

end ExprList

/-! ## Tokenizer and parser (the esprima model)

`parseExpression` in `src/util.js` is `esprima.parse(expression).body[0]`
followed by taking the statement's expression; `stringifySyntax` is
`escodegen.generate(syntax)` with the trailing semicolon stripped.  They
are embedded as an executable tokenizer / recursive-descent parser and a
precedence-aware printer for the supported expression grammar.  The
parser returns `none` both for text outside the grammar (esprima throws
a `ParseError`) and for the empty program (where `body[0]` is
`undefined` and every use in the source immediately dereferences it). -/

inductive Tok where
  | tid (s : String) : Tok
  | tnum (n : Int) : Tok
  | tstr (s : String) : Tok
  | tpunct (s : String) : Tok
  deriving DecidableEq

def isIdentStart (c : Char) : Bool :=
  c.isAlpha || c = '$' || c = '_'

def isIdentChar (c : Char) : Bool :=
  c.isAlphanum || c = '$' || c = '_'

/-- Split an identifier or keyword from the head of the input. -/
def takeIdent : List Char → (List Char × List Char)
  | [] => ([], [])
  | c :: cs =>
    if isIdentChar c then
      let (a, b) := takeIdent cs
      (c :: a, b)
    else ([], c :: cs)

def takeDigits : List Char → (List Char × List Char)
  | [] => ([], [])
  | c :: cs =>
    if c.isDigit then
      let (a, b) := takeDigits cs
      (c :: a, b)
    else ([], c :: cs)

def digitsToNat : List Char → Nat → Nat
  | [], acc => acc
  | c :: cs, acc => digitsToNat cs (acc * 10 + (c.toNat - 48))

/-- Scan a string literal body up to the closing quote; `none` when the
input ends first.  Escape sequences are outside the modelled grammar. -/
def takeStringLit (q : Char) : List Char → Option (List Char × List Char)
  | [] => none
  | c :: cs =>
    if c = q then some ([], cs)
    else do
      let (a, b) ← takeStringLit q cs
      pure (c :: a, b)

def twoCharOps : List String := ["==", "!=", "<=", ">=", "&&", "||"]

def oneCharOps : List Char :=
  ['(', ')', '[', ']', ',', '.', '!', '<', '>', '+', '-', '*', '/', '%']

def tokenize : Nat → List Char → Option (List Tok)
  | 0, _ => none
  | _ + 1, [] => some []
  | fuel + 1, c :: cs =>
    if c = ' ' || c = '\t' || c = '\n' || c = '\r' then tokenize fuel cs
    else if isIdentStart c then
      let (a, b) := takeIdent (c :: cs)
      do pure (Tok.tid (String.mk a) :: (← tokenize fuel b))
    else if c.isDigit then
      let (a, b) := takeDigits (c :: cs)
      do pure (Tok.tnum (Int.ofNat (digitsToNat a 0)) :: (← tokenize fuel b))
    else if c = '\'' || c = '"' then do
      let (a, b) ← takeStringLit c cs
      pure (Tok.tstr (String.mk a) :: (← tokenize fuel b))
    else
      match cs with
      | d :: e :: rest =>
        if String.mk [c, d, e] = "===" || String.mk [c, d, e] = "!==" then do
          pure (Tok.tpunct (String.mk [c, d, e]) :: (← tokenize fuel rest))
        else if twoCharOps.contains (String.mk [c, d]) then do
          pure (Tok.tpunct (String.mk [c, d]) :: (← tokenize fuel (e :: rest)))
        else if oneCharOps.contains c then do
          pure (Tok.tpunct (String.singleton c) :: (← tokenize fuel cs))
        else none
      | [d] =>
        if twoCharOps.contains (String.mk [c, d]) then do
          pure (Tok.tpunct (String.mk [c, d]) :: (← tokenize fuel []))
        else if oneCharOps.contains c then do
          pure (Tok.tpunct (String.singleton c) :: (← tokenize fuel cs))
        else none
      | [] =>
        if oneCharOps.contains c then do
          pure (Tok.tpunct (String.singleton c) :: (← tokenize fuel cs))
        else none

/-- Precedence of the binary and logical operators, JavaScript layout. -/
def binPrec : String → Option Nat
  | "||" => some 1
  | "&&" => some 2
  | "===" => some 3
  | "==" => some 3
  | "!==" => some 3
  | "!=" => some 3
  | "<" => some 4
  | ">" => some 4
  | "<=" => some 4
  | ">=" => some 4
  | "+" => some 5
  | "-" => some 5
  | "*" => some 6
  | "/" => some 6
  | "%" => some 6
  | _ => none

mutual
/-- Primary expressions: literals, identifiers, parenthesized. -/
def parsePrim : Nat → List Tok → Option (Expr × List Tok)
  | 0, _ => none
  | fuel + 1, ts =>
    match ts with
    | Tok.tid s :: rest =>
      if s = "true" then some (Expr.lit (LitV.lbool true), rest)
      else if s = "false" then some (Expr.lit (LitV.lbool false), rest)
      else if s = "null" then some (Expr.lit LitV.lnull, rest)
      else some (Expr.ident s, rest)
    | Tok.tnum n :: rest => some (Expr.lit (LitV.lnum n), rest)
    | Tok.tstr s :: rest => some (Expr.lit (LitV.lstr s), rest)
    | Tok.tpunct "(" :: rest => do
      let (e, rest1) ← parseBin fuel 0 rest
      match rest1 with
      | Tok.tpunct ")" :: rest2 => some (e, rest2)
      | _ => none
    | _ => none

/-- Postfix chains: `.name`, `[expr]`, `(args)`. -/
def parsePostfix : Nat → Expr → List Tok → Option (Expr × List Tok)
  | 0, _, _ => none
  | fuel + 1, e, ts =>
    match ts with
    | Tok.tpunct "." :: Tok.tid name :: rest =>
      parsePostfix fuel (Expr.member e (Expr.ident name) false) rest
    | Tok.tpunct "[" :: rest => do
      let (idx, rest1) ← parseBin fuel 0 rest
      match rest1 with
      | Tok.tpunct "]" :: rest2 => parsePostfix fuel (Expr.member e idx true) rest2
      | _ => none
    | Tok.tpunct "(" :: Tok.tpunct ")" :: rest =>
      parsePostfix fuel (Expr.call e ExprList.nil) rest
    | Tok.tpunct "(" :: rest => do
      let (args, rest1) ← parseArgs fuel rest
      parsePostfix fuel (Expr.call e args) rest1
    | _ => some (e, ts)

/-- Comma-separated argument list, closing parenthesis consumed. -/
def parseArgs : Nat → List Tok → Option (ExprList × List Tok)
  | 0, _ => none
  | fuel + 1, ts => do
    let (e, rest) ← parseBin fuel 0 ts
    match rest with
    | Tok.tpunct "," :: rest1 => do
      let (args, rest2) ← parseArgs fuel rest1
      pure (ExprList.cons e args, rest2)
    | Tok.tpunct ")" :: rest1 => pure (ExprList.cons e ExprList.nil, rest1)
    | _ => none

/-- Unary layer: `!e` (and numeric negation). -/
def parseUn : Nat → List Tok → Option (Expr × List Tok)
  | 0, _ => none
  | fuel + 1, ts =>
    match ts with
    | Tok.tpunct "!" :: rest => do
      let (e, rest1) ← parseUn fuel rest
      pure (Expr.unop "!" e, rest1)
    | Tok.tpunct "-" :: rest => do
      let (e, rest1) ← parseUn fuel rest
      pure (Expr.unop "-" e, rest1)
    | _ => do
      let (e, rest) ← parsePrim fuel ts
      parsePostfix fuel e rest

/-- Precedence climbing over the binary/logical operators, all
left-associative. -/
def parseBin : Nat → Nat → List Tok → Option (Expr × List Tok)
  | 0, _, _ => none
  | fuel + 1, minPrec, ts => do
    let (e, rest) ← parseUn fuel ts
    parseBinLoop fuel minPrec e rest

def parseBinLoop : Nat → Nat → Expr → List Tok → Option (Expr × List Tok)
  | 0, _, _, _ => none
  | fuel + 1, minPrec, left, ts =>
    match ts with
    | Tok.tpunct op :: rest =>
      match binPrec op with
      | some p =>
        if minPrec ≤ p then do
          let (right, rest1) ← parseBin fuel (p + 1) rest
          parseBinLoop fuel minPrec (Expr.binop op left right) rest1
        else some (left, ts)
      | none => some (left, ts)
    | _ => some (left, ts)
end

/-- `parseExpression` from `src/util.js`: parse a rule expression string
into its (single) expression tree. -/
def parseExpression (s : String) : Option Expr := do
  let ts ← tokenize (s.data.length + 1) s.data
  if ts.isEmpty then none
  else
    match parseBin (4 * ts.length + 8) 0 ts with
    | some (e, []) => some e
    | _ => none

/-! ## Printer (the escodegen model) -/

/-- Printing precedence levels: binary operators as in `binPrec`, unary
7, member/call 8. -/
def wrapParens (need : Bool) (s : String) : String :=
  if need then "(" ++ s ++ ")" else s

mutual
/-- Render a node in a context requiring precedence at least `prec`. -/
def printPrec : Nat → Expr → String
  | _, Expr.ident n => n
  | _, Expr.lit (LitV.lstr s) => "'" ++ s ++ "'"
  | _, Expr.lit (LitV.lnum n) => jsIntRepr n
  | _, Expr.lit (LitV.lbool b) => if b then "true" else "false"
  | _, Expr.lit LitV.lnull => "null"
  | _, Expr.lit LitV.lundef => "undefined"
  | prec, Expr.member o p computed =>
    wrapParens (decide (8 < prec))
      (if computed then printPrec 8 o ++ "[" ++ printPrec 0 p ++ "]"
       else
         -- escodegen renders the property of a static member access
         -- through `generateIdentifier`, that is through the node's
         -- `name` field, whatever the node's `type` is; identifiers are
         -- the only static properties the embedded passes produce.
         printPrec 8 o ++ "." ++
           (match p with
            | Expr.ident n => n
            | other => printPrec 8 other))
  | prec, Expr.call c args =>
    wrapParens (decide (8 < prec)) (printPrec 8 c ++ "(" ++ printArgs args ++ ")")
  | prec, Expr.binop op l r =>
    let myPrec := (binPrec op).getD 3
    wrapParens (decide (myPrec < prec))
      (printPrec myPrec l ++ " " ++ op ++ " " ++ printPrec (myPrec + 1) r)
  | prec, Expr.unop op a =>
    wrapParens (decide (7 < prec)) (op ++ printPrec 7 a)

def printArgs : ExprList → String
  | ExprList.nil => ""
  | ExprList.cons e ExprList.nil => printPrec 0 e
  | ExprList.cons e rest => printPrec 0 e ++ ", " ++ printArgs rest
end

/-- `stringifySyntax` from `src/util.js` (escodegen followed by stripping
the trailing semicolon), for expression nodes. -/
def stringifyAst (e : Expr) : String := printPrec 0 e

/-! ## `src/util.js` -/

/-- `getMemberExpressionRootName`: walk every object-valued child that is
not an array and not under the key `property`, remembering the name of
the last `Identifier` reached (`name` is overwritten on every hit, and
children are visited in esprima field order, so a hit in a later child
wins).  Returns `none` when no identifier is reached (`name` stays
`null`). -/
def getMemberExpressionRootName : Expr → Option String
  | Expr.ident n => some n
  | Expr.lit _ => none
  | Expr.member o _ _ => getMemberExpressionRootName o
  | Expr.call c _ => getMemberExpressionRootName c
  | Expr.binop _ l r =>
    match getMemberExpressionRootName r with
    | some n => some n
    | none => getMemberExpressionRootName l
  | Expr.unop _ a => getMemberExpressionRootName a

mutual
/-- `hasCallExpressionIdentifier`: search the tree for a
`CallExpression` whose `callee.property.name` equals `name`.  The access
`node.callee.property.name` throws a `TypeError` (`none`) whenever a
call with a non-member callee (for instance a plain `foo()`) is reached,
because `callee.property` is then `undefined`; children of a matched
call are not searched, all other children (including array elements and
`property` children) are. -/
def hasCEI (name : String) : Expr → Option Bool
  | Expr.call c args =>
    (match c with
     | Expr.member _ (Expr.ident pn) _ =>
       if pn = name then some true
       else do pure ((← hasCEI name c) || (← hasCEIList name args))
     | Expr.member _ _ _ => do pure ((← hasCEI name c) || (← hasCEIList name args))
     | _ => none)
  | Expr.member o p _ => do pure ((← hasCEI name o) || (← hasCEI name p))
  | Expr.binop _ l r => do pure ((← hasCEI name l) || (← hasCEI name r))
  | Expr.unop _ a => hasCEI name a
  | Expr.ident _ => some false
  | Expr.lit _ => some false
def hasCEIList (name : String) : ExprList → Option Bool
  | ExprList.nil => some false
  | ExprList.cons e rest => do pure ((← hasCEI name e) || (← hasCEIList name rest))
end

/-! ## `src/rules.js`: constants -/

def SPECIAL_KEYS : List String := [".functions", ".refs", ".parent"]

/-- `SNAPSHOT_IDENTIFIERS`: the reserved snapshot roots and their
target-language names. -/
def SNAPSHOT_IDENTIFIERS : List (String × String) :=
  [("next", "newData"), ("prev", "data"), ("root", "root")]

def isSnapshotName (n : String) : Bool :=
  (SNAPSHOT_IDENTIFIERS.map Prod.fst).contains n

def IGNORE_IDENTIFIERS : List String := ["auth"]

/-! ## `coerceVal` -/

/-- The wrapping step of `coerceVal`: the node is turned in place into
`node.val()` (a call whose callee is a non-computed member access on a
clone of the original node). -/
def wrapVal (e : Expr) : Expr :=
  Expr.call (Expr.member e (Expr.ident "val") false) ExprList.nil

mutual
/-- The walk of `coerceVal`: at an `Identifier` or `MemberExpression`
whose root is a snapshot identifier, append `.val()` unless the subtree
already contains a `val` call; such nodes are returned without visiting
their children.  Other nodes are rebuilt from their walked children,
skipping the `callee` child of a call. -/
def coerceWalk : Expr → Option Expr
  | Expr.ident n =>
    if isSnapshotName n then
      do if (← hasCEI "val" (Expr.ident n)) then pure (Expr.ident n)
         else pure (wrapVal (Expr.ident n))
    else some (Expr.ident n)
  | Expr.member o p c =>
    (match getMemberExpressionRootName (Expr.member o p c) with
     | some n =>
       if isSnapshotName n then
         do if (← hasCEI "val" (Expr.member o p c)) then pure (Expr.member o p c)
            else pure (wrapVal (Expr.member o p c))
       else some (Expr.member o p c)
     | none => some (Expr.member o p c))
  | Expr.call c args => do pure (Expr.call c (← coerceWalkList args))
  | Expr.binop op l r => do pure (Expr.binop op (← coerceWalk l) (← coerceWalk r))
  | Expr.unop op a => do pure (Expr.unop op (← coerceWalk a))
  | Expr.lit v => some (Expr.lit v)
def coerceWalkList : ExprList → Option ExprList
  | ExprList.nil => some ExprList.nil
  | ExprList.cons e rest => do
    pure (ExprList.cons (← coerceWalk e) (← coerceWalkList rest))
end

/-- `coerceVal` on an already-parsed expression (the `.syntax.expression`
view of the source function; the source's print/parse round trips are
handled by the pipeline model `compile`). -/
def coerceVal (e : Expr) : Option Expr := coerceWalk e

/-! ## `replaceFirebaseIdentifiers` -/

mutual
/-- The walk of `replaceFirebaseIdentifiers`: rename identifier nodes
whose name is a reserved snapshot root, except when the node sits under
the key `property` (the boolean parameter). -/
def renameWalk : Bool → Expr → Expr
  | isProp, Expr.ident n =>
    if isProp then Expr.ident n
    else
      match SNAPSHOT_IDENTIFIERS.lookup n with
      | some tgt => Expr.ident tgt
      | none => Expr.ident n
  | _, Expr.lit v => Expr.lit v
  | _, Expr.member o p c => Expr.member (renameWalk false o) (renameWalk true p) c
  | _, Expr.call c args => Expr.call (renameWalk false c) (renameWalkList args)
  | _, Expr.binop op l r => Expr.binop op (renameWalk false l) (renameWalk false r)
  | _, Expr.unop op a => Expr.unop op (renameWalk false a)
def renameWalkList : ExprList → ExprList
  | ExprList.nil => ExprList.nil
  | ExprList.cons e rest => ExprList.cons (renameWalk false e) (renameWalkList rest)
end

/-- `replaceFirebaseIdentifiers` on a parsed expression (the top node
sits under the key `expression` of the statement wrapper). -/
def replaceFirebaseIdentifiers (e : Expr) : Expr := renameWalk false e

/-! ## `replaceChildSyntax` -/

/-- The `value` read of a literal property node
(`proposedArgument.value`), and `undefined` for node kinds without a
`value` field. -/
def nodeValueField : Expr → LitV
  | Expr.lit v => v
  | _ => LitV.lundef

def isIdentNode : Expr → Bool
  | Expr.ident _ => true
  | _ => false

/-- Does `getMemberExpressionRootName` land on an ignored identifier
(the guard of `filterMemeberExpression` and of the member-child loop)? -/
def rootIgnored (e : Expr) : Bool :=
  match getMemberExpressionRootName e with
  | some n => IGNORE_IDENTIFIERS.contains n
  | none => false

mutual
/-- The walk of `replaceChildSyntax`.  The boolean records whether the
node being walked sits at the key `callee` of its parent (the
`parentKey` of the source; a property child of a node at `callee` is a
plain method name and is left alone when the access is not computed).
Visiting the `property` child of a member `M` rewrites `M` itself, so
the rewrite is performed here when the member's children are walked: the
object child first, then the property visit, which either converts the
member into `object.child(argument)` or leaves it.  Members rooted at an
ignored identifier do not have their children walked at all.  For a call
node every argument is first passed through `filterMemeberExpression`
(the guard `argument.type === 'MemberExpression' || node.type ===
'CallExpression'` always holds there), then the callee is walked; the
`arguments` array itself is skipped by the `!isArray` test of the child
loop.  The source mutates the member's property node's `name` to
`'child'`; since escodegen prints a static property through its `name`
field and nothing later inspects the node's kind before the next
print/parse round trip, the rewritten callee property is embedded as the
identifier `child`. -/
def childWalk : Bool → Expr → Expr
  | _, Expr.ident n => Expr.ident n
  | _, Expr.lit v => Expr.lit v
  | isCallee, Expr.member o p c =>
    if rootIgnored (Expr.member o p c) then Expr.member o p c
    else
      let o' := childWalk false o
      if !(isIdentNode p && isCallee) || c then
        -- the rewrite of the parent member performed by the property visit
        let argument :=
          (match p with
           | Expr.member _ _ _ =>
             if rootIgnored p then p else childWalk false p
           | Expr.ident n =>
             if c then Expr.ident n else Expr.lit (LitV.lstr n)
           | Expr.lit (LitV.lstr s) => Expr.lit (LitV.lstr s)
           | Expr.lit v => Expr.lit v
           | other => Expr.lit (nodeValueField other))
        Expr.call (Expr.member o' (Expr.ident "child") false)
          (ExprList.cons argument ExprList.nil)
      else Expr.member o' p c
  | _, Expr.call c args =>
    Expr.call (childWalk true c) (childFilterArgs args)
  | _, Expr.binop op l r => Expr.binop op (childWalk false l) (childWalk false r)
  | _, Expr.unop op a => Expr.unop op (childWalk false a)
/-- `filterMemeberExpression` mapped over the arguments of a call:
arguments rooted at an ignored identifier are kept, all others are
re-processed by a fresh `replaceChildSyntax` run (the print/parse round
trip the source performs is the identity of the pipeline model). -/
def childFilterArgs : ExprList → ExprList
  | ExprList.nil => ExprList.nil
  | ExprList.cons a rest =>
    ExprList.cons (if rootIgnored a then a else childWalk false a)
      (childFilterArgs rest)
end

/-- `replaceChildSyntax` on a parsed expression (the top node sits under
the key `expression`, never `callee`). -/
def replaceChildSyntax (e : Expr) : Expr := childWalk false e

/-! ## `replaceFunctions` -/

/-- `node.callee.name`: the name of an identifier callee, `undefined`
otherwise. -/
def calleeNameJV : Expr → JV
  | Expr.ident n => JV.jstr n
  | _ => JV.jundef

/-- `Object.values`: field values of an object, elements of an array,
characters of a string; a `TypeError` (`none`) on `null`/`undefined`. -/
def objValues : JV → Option (List JV)
  | JV.jobj fs => some (fieldValues fs)
  | JV.jarr es => some es.toList
  | JV.jstr s => some (s.data.map (fun c => JV.jstr (String.singleton c)))
  | JV.jnull => none
  | JV.jundef => none
  | _ => some []
where
  fieldValues : JFields → List JV
  | JFields.nil => []
  | JFields.cons _ v rest => v :: fieldValues rest

/-- Array-like view of a value, as `includes(fn.args, x)` /
`fn.args.indexOf(x)` see it: real arrays by element, strings by
character; `null`/`undefined` throw; other values have no `length` and
behave as empty. -/
def jsArrayElems : JV → Option (List JV)
  | JV.jarr es => some es.toList
  | JV.jstr s => some (s.data.map (fun c => JV.jstr (String.singleton c)))
  | JV.jnull => none
  | JV.jundef => none
  | _ => some []

/-- `includes(list, x)` with the strict (SameValueZero) comparison. -/
def jvIncludes (l : List JV) (x : JV) : Bool :=
  l.any (fun v => jvStrictEq v x)

/-- `list.indexOf(x)` as a `Nat` index (`none` when absent). -/
def jvIndexOf (l : List JV) (x : JV) : Option Nat :=
  go l 0
where
  go : List JV → Nat → Option Nat
  | [], _ => none
  | v :: rest, i => if jvStrictEq v x then some i else go rest (i + 1)

/-- `find(values, ({name}) => name === calleeName)`: the first function
value whose `name` field is strictly equal to the callee name. -/
def findByName : List JV → List JV → JV → Option JV
  | [], _, _ => none
  | v :: vs, n :: ns, target =>
    if jvStrictEq n target then some v else findByName vs ns target
  | _ :: _, [], _ => none

/-- `Object.values(fns).map(fn => fn.name)` (a `TypeError` when a value
is `null`/`undefined`). -/
def mapMJV (vals : List JV) : Option (List JV) :=
  match vals with
  | [] => some []
  | v :: rest => do pure ((← jvGet v "name") :: (← mapMJV rest))

mutual
/-- `walkFn`: replace every identifier that names one of the declared
parameters by the call-site argument in the same position, leaving the
identifier alone when the call site passed no such argument
(`if (arg) ...`); children under the key `property` are skipped exactly
when the parent member access is not computed. -/
def substFn (argNames : List JV) (args : ExprList) : Expr → Expr
  | Expr.ident n =>
    if jvIncludes argNames (JV.jstr n) then
      match jvIndexOf argNames (JV.jstr n) with
      | some i =>
        (match args.get? i with
         | some a => a
         | none => Expr.ident n)
      | none => Expr.ident n
    else Expr.ident n
  | Expr.lit v => Expr.lit v
  | Expr.member o p c =>
    Expr.member (substFn argNames args o)
      (if c then substFn argNames args p else p) c
  | Expr.call cl as =>
    Expr.call (substFn argNames args cl) (substFnList argNames args as)
  | Expr.binop op l r =>
    Expr.binop op (substFn argNames args l) (substFn argNames args r)
  | Expr.unop op a => Expr.unop op (substFn argNames args a)
def substFnList (argNames : List JV) (args : ExprList) : ExprList → ExprList
  | ExprList.nil => ExprList.nil
  | ExprList.cons e rest =>
    ExprList.cons (substFn argNames args e) (substFnList argNames args rest)
end

/-- The initial contents of the process-wide `REGISTERED_FUNCTIONS`
registry (`registerFunction` mutates it at run time and is outside the
embedding). -/
def registeredNames : List String := ["oneOf"]

/-- The `eval(stringifySyntax(arg))` step of a registered-function call.
The registered-function contract (and every use in the source) passes
literal arguments; a non-literal evaluates a free identifier and throws
a `ReferenceError` (`none`).  `undefined` is the one identifier that
evaluates. -/
def evalLit : Expr → Option JV
  | Expr.lit (LitV.lstr s) => some (JV.jstr s)
  | Expr.lit (LitV.lnum n) => some (JV.jnum n)
  | Expr.lit (LitV.lbool b) => some (JV.jbool b)
  | Expr.lit LitV.lnull => some JV.jnull
  | Expr.lit LitV.lundef => some JV.jundef
  | Expr.ident n => if n = "undefined" then some JV.jundef else none
  | Expr.unop "-" (Expr.lit (LitV.lnum n)) => some (JV.jnum (-n))
  | _ => none

def evalLitList : ExprList → Option (List JV)
  | ExprList.nil => some []
  | ExprList.cons e rest => do pure ((← evalLit e) :: (← evalLitList rest))

/-- The built-in `oneOf` registered function: string keys are quoted,
each key becomes an equality against the snapshot, and the equalities
are joined with `||`.  When the first argument is not an array, all the
arguments become the keys and the snapshot falls back to `next` (so the
`oneOf() requires at least one argument` throw is unreachable: the
sliced `arguments` object is always an array). -/
def oneOfImpl (args : List JV) : String :=
  let (keys, snapshot) :=
    match args with
    | JV.jarr es :: rest =>
      (es.toList,
       match rest with
       | [] => JV.jstr "next"
       | v :: _ => if v = JV.jundef then JV.jstr "next" else v)
    | _ => (args, JV.jstr "next")
  joinBars (keys.map (fun k =>
    jvToString snapshot ++ " === " ++
      (match k with
       | JV.jstr s => "'" ++ s ++ "'"
       | v => jvToString v)))
where
  joinBars : List String → String
  | [] => ""
  | [s] => s
  | s :: rest => s ++ "||" ++ joinBars rest

/-- Dispatch into the registered-function registry. -/
def applyRegistered (name : String) (args : List JV) : Option String :=
  if name = "oneOf" then some (oneOfImpl args) else none

mutual
/-- `replaceFunctions` (fuel-driven; the JavaScript original recurses
through re-parsed strings without a bound and diverges on cyclic
declarations).  At a call whose callee name is strictly equal to the
`name` of some declared function: inline function calls in every
argument first (each through a print/parse round trip), then inline
function calls in the declared body, then substitute parameters by
position with `walkFn` and replace the call by the substituted body.
Otherwise, at a call whose callee names a registered function: evaluate
the arguments to plain values, call the native implementation and parse
the returned fragment in place of the call.  Every other node has its
children walked, the `arguments` array of a call being walked
element-wise.  (The source extracts the declared- and registered-name
lists once per `replaceFunctions` call and shares them across the inner
`walkValue` recursion; this definition recomputes them from `options` at
every node, which is observationally identical because the extraction is
pure and `options` never changes during the walk.) -/
def replaceFunctions : Nat → JV → Expr → Option Expr
  | 0, _, _ => none
  | fuel + 1, options, e => do
    let fns ← jvGet options ".functions"
    let vals ← objValues fns
    let names ← mapMJV vals
    match e with
    | Expr.call c args =>
      let callee := calleeNameJV c
      if jvIncludes names callee then do
        let fn ← findByName vals names callee
        let args' ← replaceFunArgs fuel options args
        let bodyJV ← jvGet fn "body"
        let bodyE ← parseExpression (jvToString bodyJV)
        let bodyE' ← replaceFunctions fuel options bodyE
        let fnAst ← parseExpression (stringifyAst bodyE')
        let argNamesJV ← jvGet fn "args"
        let argNames ← jsArrayElems argNamesJV
        pure (substFn argNames args' fnAst)
      else if (match callee with
               | JV.jstr n => registeredNames.contains n
               | _ => false) then do
        let lits ← evalLitList args
        let frag ← (match callee with
                    | JV.jstr n => applyRegistered n lits
                    | _ => none)
        parseExpression frag
      else do
        pure (Expr.call (← replaceFunctions fuel options c)
          (← replaceFunList fuel options args))
    | Expr.member o p cm => do
      pure (Expr.member (← replaceFunctions fuel options o)
        (← replaceFunctions fuel options p) cm)
    | Expr.binop op l r => do
      pure (Expr.binop op (← replaceFunctions fuel options l)
        (← replaceFunctions fuel options r))
    | Expr.unop op a => do pure (Expr.unop op (← replaceFunctions fuel options a))
    | Expr.ident n => pure (Expr.ident n)
    | Expr.lit v => pure (Expr.lit v)
/-- `node.arguments.map(arg => replaceFunctions(stringifySyntax(arg),
options).syntax.expression)`: each argument is printed, re-parsed and
fully re-processed. -/
def replaceFunArgs : Nat → JV → ExprList → Option ExprList
  | 0, _, _ => none
  | fuel + 1, options, es =>
    match es with
    | ExprList.nil => some ExprList.nil
    | ExprList.cons a rest => do
      let aE ← parseExpression (stringifyAst a)
      let a' ← replaceFunctions fuel options aE
      pure (ExprList.cons a' (← replaceFunArgs fuel options rest))
/-- The child walk over the `arguments` array in the default branch. -/
def replaceFunList : Nat → JV → ExprList → Option ExprList
  | 0, _, _ => none
  | fuel + 1, options, es =>
    match es with
    | ExprList.nil => some ExprList.nil
    | ExprList.cons a rest => do
      pure (ExprList.cons (← replaceFunctions fuel options a)
        (← replaceFunList fuel options rest))
end

/-! ## `expandRefs` and `expandFunctions` (`src/util.js`) -/

/-- Expansion of a single `.refs` entry: a bare string becomes
`{value, depth: 0}`; an object's `depth` is incremented when it is a
number and set to `0` otherwise.  A primitive or `null`/`undefined`
entry makes the strict-mode property write `ref.depth = ...` throw; an
array entry would store `depth` as a string-keyed array property, which
the embedding does not represent (rule documents contain no arrays). -/
def expandRefEntry : JV → Option JV
  | JV.jstr s =>
    some (JV.jobj (JFields.cons "value" (JV.jstr s)
      (JFields.cons "depth" (JV.jnum 0) JFields.nil)))
  | JV.jobj fs =>
    (match fs.lookup "depth" with
     | some (JV.jnum d) => some (JV.jobj (fs.set "depth" (JV.jnum (d + 1))))
     | _ => some (JV.jobj (fs.set "depth" (JV.jnum 0))))
  | _ => none

def expandRefsFields : JFields → Option JFields
  | JFields.nil => some JFields.nil
  | JFields.cons k v rest => do
    pure (JFields.cons k (← expandRefEntry v) (← expandRefsFields rest))

def expandRefsElems : JElems → Option JElems
  | JElems.nil => some JElems.nil
  | JElems.cons v rest => do
    pure (JElems.cons (← expandRefEntry v) (← expandRefsElems rest))

/-- `expandRefs`: expand every entry of the `.refs` map in place.  A
non-empty string receives per-character entries whose expansion writes a
property onto the string primitive (a strict-mode `TypeError`);
`Object.entries` of `null`/`undefined` throws; numbers and booleans have
no entries. -/
def expandRefs : JV → Option JV
  | JV.jobj fs => (expandRefsFields fs).map JV.jobj
  | JV.jarr es => (expandRefsElems es).map JV.jarr
  | JV.jstr s => if s = "" then some (JV.jstr "") else none
  | JV.jnum n => some (JV.jnum n)
  | JV.jbool b => some (JV.jbool b)
  | JV.jnull => none
  | JV.jundef => none

/-- Validation and expansion of a single `.functions` entry: the
declaration key must parse as a call expression whose arguments are all
plain identifiers, otherwise the `Invalid .function declaration` error
aborts the conversion; a bare string value is replaced by the structured
`{body, name, args}` record (`name` is `callee.name`, `undefined` for a
non-identifier callee). -/
def expandFnEntry (key : String) (v : JV) : Option JV := do
  let syn ← parseExpression key
  match syn with
  | Expr.call callee args =>
    if argsAllIdents args then
      match v with
      | JV.jstr body =>
        some (JV.jobj (JFields.cons "body" (JV.jstr body)
          (JFields.cons "name" (calleeNameJV callee)
            (JFields.cons "args" (JV.jarr (argNamesArr args)) JFields.nil))))
      | _ => some v
    else none
  | _ => none
where
  argsAllIdents : ExprList → Bool
  | ExprList.nil => true
  | ExprList.cons (Expr.ident _) rest => argsAllIdents rest
  | ExprList.cons _ _ => false
  argNamesArr : ExprList → JElems
  | ExprList.nil => JElems.nil
  | ExprList.cons (Expr.ident n) rest => JElems.cons (JV.jstr n) (argNamesArr rest)
  | ExprList.cons _ rest => JElems.cons JV.jundef (argNamesArr rest)

def expandFnsFields : JFields → Option JFields
  | JFields.nil => some JFields.nil
  | JFields.cons k v rest => do
    pure (JFields.cons k (← expandFnEntry k v) (← expandFnsFields rest))

def expandFnsElems : Nat → JElems → Option JElems
  | _, JElems.nil => some JElems.nil
  | i, JElems.cons v rest => do
    pure (JElems.cons (← expandFnEntry (natDigits (i + 1) i) v)
      (← expandFnsElems (i + 1) rest))

/-- `expandFunctions`: validate and expand every entry of the
`.functions` map.  Array and non-empty-string maps get index keys, which
never parse as call declarations, so they fail; `null`/`undefined` throw
in `Object.entries`. -/
def expandFunctions : JV → Option JV
  | JV.jobj fs => (expandFnsFields fs).map JV.jobj
  | JV.jarr es => (expandFnsElems 0 es).map JV.jarr
  | JV.jstr s =>
    if s = "" then some (JV.jstr "")
    else (expandFnsElems 0 (listToElems (s.data.map (fun c =>
      JV.jstr (String.singleton c))))).map (fun _ => JV.jstr s)
  | JV.jnum n => some (JV.jnum n)
  | JV.jbool b => some (JV.jbool b)
  | JV.jnull => none
  | JV.jundef => none

/-! ## `replaceRefs` -/

/-- `_.repeat('.parent()', depth)` with `ToInteger` coercion of the
depth; a negative count throws a `RangeError`. -/
def dupStr : Nat → String → String
  | 0, _ => ""
  | n + 1, s => s ++ dupStr n s

/-- `ToInteger` as `String.prototype.repeat` applies it to the recorded
depth: numbers stay numbers, `undefined`/`null`/non-numeric values
become `0`, `true` becomes `1`.  (Numeric strings are not produced by
the program and are not modelled.) -/
def jsToInteger : JV → Int
  | JV.jnum d => d
  | JV.jbool b => if b then 1 else 0
  | _ => 0

/-- ECMAScript `GetSubstitution` as it applies inside the source's
`match.replace(match, text)`: the search string is the whole string
itself, so the matched text is the token and the preceding and
following portions are both empty.  With a string pattern there are no
capture groups, so the recognised escapes are: `$$` emits `$`, `$&`
re-inserts the matched token, the dollar-backquote and dollar-quote
escapes emit the (empty) preceding/following portion, and every other
`$` sequence (`$1`, `$<`, a trailing `$`, ...) passes through
literally. -/
def getSubstitution (matched : String) : List Char → List Char
  | [] => []
  | [c] => [c]
  | c :: d :: rest =>
    if c = '$' then
      if d = '$' then '$' :: getSubstitution matched rest
      else if d = '&' then matched.data ++ getSubstitution matched rest
      else if d = Char.ofNat 96 then getSubstitution matched rest
      else if d = '\'' then getSubstitution matched rest
      else '$' :: getSubstitution matched (d :: rest)
    else c :: getSubstitution matched (d :: rest)

/-- Whether a character list is free of the `$` escape introducer, the
condition under which `getSubstitution` is the identity. -/
def dollarFreeL (cs : List Char) : Bool :=
  cs.all (fun c => c != '$')

/-- The replacement text for one matched occurrence of a ref token:
`keyword || ref.value` followed by `depth` copies of `.parent()`, run
through `getSubstitution` because the source builds it with
`match.replace(match, ...)` and a string replacement argument.
`ref.value` is only read (and can only throw on a `null`/`undefined`
ref) when no override keyword is present. -/
def refReplacement (matched : String) (ref : JV) (kw : Option String) :
    Option String := do
  let snap ← (match kw with
              | some k => some k
              | none => (jvGet ref "value").map jvToString)
  let dJV ← jvGet ref "depth"
  let d := jsToInteger dJV
  if d < 0 then none
  else some (String.mk (getSubstitution matched
    (snap ++ dupStr d.toNat ".parent()").data))

/-- Split an optional `(next)` / `(prev)` override group from the head
of the remaining input. -/
def kwSplit (cs : List Char) : Option (String × List Char) :=
  if "(next)".data.isPrefixOf cs then some ("next", cs.drop 6)
  else if "(prev)".data.isPrefixOf cs then some ("prev", cs.drop 6)
  else none

/-- The global regex replacement for the pattern
`\^NAME(?:\((next|prev)\))?` with `NAME` escaped to a literal:
left-to-right, non-overlapping, the optional override group being
consumed when present; replaced text is not rescanned. -/
def refScan (name : List Char) (ref : JV) : Nat → List Char → Option (List Char)
  | 0, _ => none
  | _ + 1, [] => some []
  | fuel + 1, c :: cs =>
    if ('^' :: name).isPrefixOf (c :: cs) then
      let rest := (c :: cs).drop ('^' :: name).length
      match kwSplit rest with
      | some (kw, rest2) => do
        let r ← refReplacement (String.mk ('^' :: name) ++ "(" ++ kw ++ ")")
          ref (some kw)
        pure (r.data ++ (← refScan name ref fuel rest2))
      | none => do
        let r ← refReplacement (String.mk ('^' :: name)) ref none
        pure (r.data ++ (← refScan name ref fuel rest))
    else do
      pure (c :: (← refScan name ref fuel cs))

/-- `Object.entries` of the `.refs` map (a `TypeError` on
`null`/`undefined`). -/
def jvEntries : JV → Option (List (String × JV))
  | JV.jobj fs => some (fieldEntries fs)
  | JV.jarr es => some (indexEntries 0 es)
  | JV.jstr s => some (strEntries 0 s.data)
  | JV.jnull => none
  | JV.jundef => none
  | _ => some []
where
  fieldEntries : JFields → List (String × JV)
  | JFields.nil => []
  | JFields.cons k v rest => (k, v) :: fieldEntries rest
  indexEntries : Nat → JElems → List (String × JV)
  | _, JElems.nil => []
  | i, JElems.cons v rest => (natDigits (i + 1) i, v) :: indexEntries (i + 1) rest
  strEntries : Nat → List Char → List (String × JV)
  | _, [] => []
  | i, c :: rest =>
    (natDigits (i + 1) i, JV.jstr (String.singleton c)) :: strEntries (i + 1) rest

/-- `replaceRefs`: for every ref in scope, in declaration order, replace
every `^NAME` / `^NAME(next|prev)` token in the expression text. -/
def replaceRefs (value : String) (options : JV) : Option String := do
  let refs ← jvGet options ".refs"
  let entries ← jvEntries refs
  refsLoop entries value
where
  refsLoop : List (String × JV) → String → Option String
  | [], v => some v
  | (name, ref) :: rest, v => do
    let out ← refScan name.data ref (v.data.length + 1) v.data
    refsLoop rest (String.mk out)

/-! ## `getOptions` and the pipeline driver `parse` -/

/-- `_.pick(obj, SPECIAL_KEYS)`: the special-key subset, in the order of
the key list.  Non-objects have none of the keys. -/
def pickSpecial : JV → JFields
  | JV.jobj fs => pickFrom SPECIAL_KEYS fs
  | _ => JFields.nil
where
  pickFrom : List String → JFields → JFields
  | [], _ => JFields.nil
  | k :: ks, fs =>
    (match fs.lookup k with
     | some v => JFields.cons k v (pickFrom ks fs)
     | none => pickFrom ks fs)

/-- `SPECIAL_KEYS.forEach(key => delete rules[key])`: strip an object's
special keys; `delete` on a `null`/`undefined` base throws. -/
def deleteSpecial : JV → Option JV
  | JV.jobj fs => some (JV.jobj (((fs.erase ".functions").erase ".refs").erase ".parent"))
  | JV.jnull => none
  | JV.jundef => none
  | other => some other

/-- The defaults merged below both option sets. -/
def optionDefaults : JV :=
  JV.jobj (JFields.cons ".functions" (JV.jobj JFields.nil)
    (JFields.cons ".refs" (JV.jobj JFields.nil) JFields.nil))

/-- The wildcard scan of `getOptions`: for every immediate key of the
parent node that begins with `$`, write `refs[key] = 'prev'` -
unconditionally, overwriting any same-named entry already present. -/
def injectWildcards : JV → List String → Option JV
  | refs, [] => some refs
  | refs, k :: ks =>
    if startsWithDollar k then do
      injectWildcards (← jvSet refs k (JV.jstr "prev")) ks
    else injectWildcards refs ks

/-- Field read on the merged options object. -/
def mergedField (merged : JV) (key : String) : JV :=
  match merged with
  | JV.jobj fs => (fs.lookup key).getD JV.jundef
  | _ => JV.jundef

/-- `getOptions`: merge the special-key subsets of the inherited options
and of the node over the defaults, strip the special keys from the node,
inject an implicit `'prev'` ref for every `$`-wildcard key of the parent
node, expand the refs and functions maps, and record the stripped node
as the new `.parent`.  Returns the options object together with the
stripped node. -/
def getOptions (rules : JV) (options : JV) : Option (JV × JV) := do
  let prev := pickSpecial options
  let next := pickSpecial rules
  let merged := mergeJV (mergeJV (mergeJV (JV.jobj JFields.nil) optionDefaults)
    (JV.jobj prev)) (JV.jobj next)
  let functions := mergedField merged ".functions"
  let refs := mergedField merged ".refs"
  let parentv := mergedField merged ".parent"
  let stripped ← deleteSpecial rules
  let refs1 ← (if jvTruthy parentv then injectWildcards refs (jvKeys parentv)
               else some refs)
  let refs2 ← expandRefs refs1
  let functions2 ← expandFunctions functions
  some (JV.jobj (JFields.cons ".functions" functions2
    (JFields.cons ".refs" refs2
      (JFields.cons ".parent" stripped JFields.nil))), stripped)

/-- The per-string pipeline of `parse`: reference expansion, function
inlining, value coercion, child-syntax desugaring, identifier renaming -
with the print/parse round trip the source performs between the
passes. -/
def compile (fuel : Nat) (options : JV) (s : String) : Option String := do
  let s1 ← replaceRefs s options
  let e1 ← parseExpression s1
  let e2 ← replaceFunctions fuel options e1
  let e3 ← parseExpression (stringifyAst e2)
  let e4 ← coerceVal e3
  let e5 ← parseExpression (stringifyAst e4)
  let e6 := replaceChildSyntax e5
  let e7 ← parseExpression (stringifyAst e6)
  some (stringifyAst (replaceFirebaseIdentifiers e7))

mutual
/-- The driver `parse`: resolve the node's options, then walk the
remaining entries, recursing into objects (and arrays, and crashing on
`null`, which `typeof` also calls an object), compiling strings, and
passing other scalars through.  A non-empty string node would have its
characters compiled and written back onto the primitive (a strict-mode
`TypeError`). -/
def parse (fuel : Nat) (rules : JV) (options : JV) : Option JV :=
  match rules with
  | JV.jobj fs => do
    let (o, _) ← getOptions (JV.jobj fs) options
    pure (JV.jobj (← parseFields fuel o fs))
  | JV.jarr es => do
    let (o, _) ← getOptions (JV.jarr es) options
    pure (JV.jarr (← parseElems fuel o es))
  | JV.jnull => none
  | JV.jundef => none
  | JV.jstr s => do
    let _ ← getOptions (JV.jstr s) options
    if s = "" then pure (JV.jstr "") else none
  | JV.jnum n => do
    let _ ← getOptions (JV.jnum n) options
    pure (JV.jnum n)
  | JV.jbool b => do
    let _ ← getOptions (JV.jbool b) options
    pure (JV.jbool b)
/-- The entry loop of `parse` over an object node (the special keys were
deleted by `getOptions` before the loop, so they are skipped here). -/
def parseFields (fuel : Nat) (o : JV) : JFields → Option JFields
  | JFields.nil => some JFields.nil
  | JFields.cons k v rest =>
    if SPECIAL_KEYS.contains k then parseFields fuel o rest
    else do
      let v' ← (match v with
        | JV.jobj _ | JV.jarr _ | JV.jnull => parse fuel v o
        | JV.jstr s => (compile fuel o s).map JV.jstr
        | other => pure other)
      pure (JFields.cons k v' (← parseFields fuel o rest))
/-- The entry loop of `parse` over an array node. -/
def parseElems (fuel : Nat) (o : JV) : JElems → Option JElems
  | JElems.nil => some JElems.nil
  | JElems.cons v rest => do
    let v' ← (match v with
      | JV.jobj _ | JV.jarr _ | JV.jnull => parse fuel v o
      | JV.jstr s => (compile fuel o s).map JV.jstr
      | other => pure other)
    pure (JElems.cons v' (← parseElems fuel o rest))
end

/-! ## The processing invariant of the rule tree -/

mutual
/-- No node of the tree carries any of the special keys. -/
def noSpecialJV : JV → Bool
  | JV.jobj fs => noSpecialFields fs
  | JV.jarr es => noSpecialElems es
  | _ => true
def noSpecialFields : JFields → Bool
  | JFields.nil => true
  | JFields.cons k v rest =>
    !(SPECIAL_KEYS.contains k) && noSpecialJV v && noSpecialFields rest
def noSpecialElems : JElems → Bool
  | JElems.nil => true
  | JElems.cons v rest => noSpecialJV v && noSpecialElems rest
end

/-- Node values that the entry loop of `parse` passes through
unmodified (`typeof` neither `object` nor `string`). -/
def isScalarLeaf : JV → Bool
  | JV.jnum _ => true
  | JV.jbool _ => true
  | JV.jundef => true
  | _ => false

/-- Node values that the entry loop of `parse` recurses into
(`typeof rule === 'object'`). -/
def isObjectLike : JV → Bool
  | JV.jobj _ => true
  | JV.jarr _ => true
  | JV.jnull => true
  | _ => false

mutual
/-- The correspondence `parse` establishes between a node and its
processed form: the node's options are resolved by `getOptions`, and
every remaining entry is either a compiled string leaf, a recursively
processed subtree, or an untouched scalar. -/
inductive Compiles : Nat → JV → JV → JV → Prop where
  | obj : ∀ (fuel : Nat) (options : JV) (fs : JFields) (o st : JV) (fs' : JFields),
      getOptions (JV.jobj fs) options = some (o, st) →
      CompFields fuel o fs fs' →
      Compiles fuel options (JV.jobj fs) (JV.jobj fs')
  | arr : ∀ (fuel : Nat) (options : JV) (es : JElems) (o st : JV) (es' : JElems),
      getOptions (JV.jarr es) options = some (o, st) →
      CompElems fuel o es es' →
      Compiles fuel options (JV.jarr es) (JV.jarr es')
  | emptyStr : ∀ (fuel : Nat) (options : JV),
      Compiles fuel options (JV.jstr "") (JV.jstr "")
  | num : ∀ (fuel : Nat) (options : JV) (n : Int),
      Compiles fuel options (JV.jnum n) (JV.jnum n)
  | bool : ∀ (fuel : Nat) (options : JV) (b : Bool),
      Compiles fuel options (JV.jbool b) (JV.jbool b)
/-- Entry-wise correspondence under resolved options `o`: special keys
are dropped, string values are replaced by their five-pass compilation,
object-like values are processed recursively, scalars pass through. -/
inductive CompFields : Nat → JV → JFields → JFields → Prop where
  | nil : ∀ (fuel : Nat) (o : JV), CompFields fuel o JFields.nil JFields.nil
  | special : ∀ (fuel : Nat) (o : JV) (k : String) (v : JV) (fs fs' : JFields),
      SPECIAL_KEYS.contains k = true →
      CompFields fuel o fs fs' →
      CompFields fuel o (JFields.cons k v fs) fs'
  | strLeaf : ∀ (fuel : Nat) (o : JV) (k : String) (s c : String) (fs fs' : JFields),
      SPECIAL_KEYS.contains k = false →
      compile fuel o s = some c →
      CompFields fuel o fs fs' →
      CompFields fuel o (JFields.cons k (JV.jstr s) fs)
        (JFields.cons k (JV.jstr c) fs')
  | node : ∀ (fuel : Nat) (o : JV) (k : String) (v v' : JV) (fs fs' : JFields),
      SPECIAL_KEYS.contains k = false →
      isObjectLike v = true →
      Compiles fuel o v v' →
      CompFields fuel o fs fs' →
      CompFields fuel o (JFields.cons k v fs) (JFields.cons k v' fs')
  | scalar : ∀ (fuel : Nat) (o : JV) (k : String) (v : JV) (fs fs' : JFields),
      SPECIAL_KEYS.contains k = false →
      isScalarLeaf v = true →
      CompFields fuel o fs fs' →
      CompFields fuel o (JFields.cons k v fs) (JFields.cons k v fs')
inductive CompElems : Nat → JV → JElems → JElems → Prop where
  | nil : ∀ (fuel : Nat) (o : JV), CompElems fuel o JElems.nil JElems.nil
  | strLeaf : ∀ (fuel : Nat) (o : JV) (s c : String) (es es' : JElems),
      compile fuel o s = some c →
      CompElems fuel o es es' →
      CompElems fuel o (JElems.cons (JV.jstr s) es)
        (JElems.cons (JV.jstr c) es')
  | node : ∀ (fuel : Nat) (o : JV) (v v' : JV) (es es' : JElems),
      isObjectLike v = true →
      Compiles fuel o v v' →
      CompElems fuel o es es' →
      CompElems fuel o (JElems.cons v es) (JElems.cons v' es')
  | scalar : ∀ (fuel : Nat) (o : JV) (v : JV) (es es' : JElems),
      isScalarLeaf v = true →
      CompElems fuel o es es' →
      CompElems fuel o (JElems.cons v es) (JElems.cons v es')
end

/-! ## Concrete fixtures used by the claim theorems -/

def mkObj1 (k : String) (v : JV) : JV := JV.jobj (JFields.cons k v JFields.nil)

def mkObj2 (k1 : String) (v1 : JV) (k2 : String) (v2 : JV) : JV :=
  JV.jobj (JFields.cons k1 v1 (JFields.cons k2 v2 JFields.nil))

def mkObj3 (k1 : String) (v1 : JV) (k2 : String) (v2 : JV) (k3 : String) (v3 : JV) : JV :=
  JV.jobj (JFields.cons k1 v1 (JFields.cons k2 v2 (JFields.cons k3 v3 JFields.nil)))

/-- A fully expanded ref record `{value, depth}`. -/
def refRecord (v : String) (d : Int) : JV :=
  mkObj2 "value" (JV.jstr v) "depth" (JV.jnum d)

/-- An expanded function record `{name, body, args}` as the test suite
passes them to `replaceFunctions` directly. -/
def fnRecord (name body : String) (args : List String) : JV :=
  mkObj3 "name" (JV.jstr name) "body" (JV.jstr body)
    "args" (JV.jarr (strElems args))
where
  strElems : List String → JElems
  | [] => JElems.nil
  | s :: rest => JElems.cons (JV.jstr s) (strElems rest)

/-- Options with an empty `.functions` map. -/
def optsNoFns : JV := mkObj1 ".functions" (JV.jobj JFields.nil)

/-- Options declaring `complex(a,b,c): next === a && prev == b || c === b`. -/
def optsComplex : JV :=
  mkObj1 ".functions" (mkObj1 "complex"
    (fnRecord "complex" "next === a && prev == b || c === b" ["a", "b", "c"]))

/-- Options declaring `isString(snapshot): snapshot.isString()` and
`b(snapshot): isString(snapshot)`. -/
def optsNested : JV :=
  mkObj1 ".functions" (mkObj2
    "isString" (fnRecord "isString" "snapshot.isString()" ["snapshot"])
    "b" (fnRecord "b" "isString(snapshot)" ["snapshot"]))

/-- The call `complex(1,2,3)`. -/
def callComplex : Expr :=
  Expr.call (Expr.ident "complex")
    (ExprList.cons (Expr.lit (LitV.lnum 1))
      (ExprList.cons (Expr.lit (LitV.lnum 2))
        (ExprList.cons (Expr.lit (LitV.lnum 3)) ExprList.nil)))

/-- The expected inlined body `next === 1 && prev == 2 || 3 === 2`. -/
def inlinedComplex : Expr :=
  Expr.binop "||"
    (Expr.binop "&&"
      (Expr.binop "===" (Expr.ident "next") (Expr.lit (LitV.lnum 1)))
      (Expr.binop "==" (Expr.ident "prev") (Expr.lit (LitV.lnum 2))))
    (Expr.binop "===" (Expr.lit (LitV.lnum 3)) (Expr.lit (LitV.lnum 2)))

/-- The AST of `next.foo.bar`. -/
def astNextFooBar : Expr :=
  Expr.member (Expr.member (Expr.ident "next") (Expr.ident "foo") false)
    (Expr.ident "bar") false

/-- The AST of `next['foo']['bar']`. -/
def astNextFooBarBrackets : Expr :=
  Expr.member (Expr.member (Expr.ident "next") (Expr.lit (LitV.lstr "foo")) true)
    (Expr.lit (LitV.lstr "bar")) true

/-- The AST of `next.child('foo').child('bar')`. -/
def astNextChildFooChildBar : Expr :=
  Expr.call
    (Expr.member
      (Expr.call (Expr.member (Expr.ident "next") (Expr.ident "child") false)
        (ExprList.cons (Expr.lit (LitV.lstr "foo")) ExprList.nil))
      (Expr.ident "child") false)
    (ExprList.cons (Expr.lit (LitV.lstr "bar")) ExprList.nil)

/-- The AST of `next[$foo]`. -/
def astNextDollarFoo : Expr :=
  Expr.member (Expr.ident "next") (Expr.ident "$foo") true

/-- The AST of `next.child($foo)` - the index is passed as an identifier
argument, not a string literal. -/
def astNextChildDollarFoo : Expr :=
  Expr.call (Expr.member (Expr.ident "next") (Expr.ident "child") false)
    (ExprList.cons (Expr.ident "$foo") ExprList.nil)

/-- The AST of `next.hasChild()`. -/
def astNextHasChild : Expr :=
  Expr.call (Expr.member (Expr.ident "next") (Expr.ident "hasChild") false)
    ExprList.nil

/-- The AST of `next[prev.val()]`: the outer chain is rooted at a
snapshot identifier and its computed index contains a `val` call, but
the chain itself does not end in `.val()`. -/
def astNextIdxPrevVal : Expr :=
  Expr.member (Expr.ident "next")
    (Expr.call (Expr.member (Expr.ident "prev") (Expr.ident "val") false)
      ExprList.nil) true

/-- Inherited options for the wildcard-injection counterexample: the ref
`$m` is explicitly declared (inherited, already expanded) with value
`next`, and the parent node has the wildcard child key `$m`. -/
def wildcardClashOptions : JV :=
  mkObj2 ".refs" (mkObj1 "$m" (refRecord "next" 0))
    ".parent" (mkObj1 "$m" (JV.jobj JFields.nil))

/-- The options record `getOptions` actually produces for
`wildcardClashOptions`: the explicit `$m` declaration has been
overwritten by the implicit wildcard ref `{value:'prev', depth:0}`. -/
def wildcardClashResolved : JV :=
  mkObj3 ".functions" (JV.jobj JFields.nil)
    ".refs" (mkObj1 "$m" (refRecord "prev" 0))
    ".parent" (JV.jobj JFields.nil)

/-- The `.refs` entry of a resolved options object, by name. -/
def refsEntry (o : JV) (k : String) : Option JV :=
  match mergedField o ".refs" with
  | JV.jobj fs => fs.lookup k
  | _ => none

/-- Field lookup on an object value (plain reading, no `undefined`
default). -/
def optJVLookup : JV → String → Option JV
  | JV.jobj fs, k => fs.lookup k
  | _, _ => none

/-- The rule tree `{'.read': 'next'}` and its processed form. -/
def treeSimple : JV := mkObj1 ".read" (JV.jstr "next")

def treeSimpleCompiled : JV := mkObj1 ".read" (JV.jstr "newData.val()")

/-! ## Helper lemmas -/

theorem coerceWalk_wrap (x : Expr) : coerceWalk (wrapVal x) = some (wrapVal x) := rfl

mutual
theorem coerceWalk_idem : ∀ (e e' : Expr), coerceWalk e = some e' → coerceWalk e' = some e'
  | Expr.ident n, e', h => by
    by_cases hs : isSnapshotName n
    · have he : e' = wrapVal (Expr.ident n) := by
        simp [coerceWalk, hs, hasCEI] at h
        exact h.symm
      subst he
      exact coerceWalk_wrap _
    · have he : e' = Expr.ident n := by
        simp [coerceWalk, hs] at h
        exact h.symm
      subst he
      simp [coerceWalk, hs]
  | Expr.lit v, e', h => by
    have he : e' = Expr.lit v := by simp [coerceWalk] at h; exact h.symm
    subst he
    simp [coerceWalk]
  | Expr.member o p c, e', h => by
    rcases hr : getMemberExpressionRootName (Expr.member o p c) with _ | n
    · have he : e' = Expr.member o p c := by
        simp [coerceWalk, hr] at h
        exact h.symm
      subst he
      simp [coerceWalk, hr]
    · by_cases hs : isSnapshotName n
      · rcases hv : hasCEI "val" (Expr.member o p c) with _ | b
        · simp [coerceWalk, hr, hs, hv] at h
        · cases b with
          | true =>
            have he : e' = Expr.member o p c := by
              simp [coerceWalk, hr, hs, hv] at h
              exact h.symm
            subst he
            simp [coerceWalk, hr, hs, hv]
          | false =>
            have he : e' = wrapVal (Expr.member o p c) := by
              simp [coerceWalk, hr, hs, hv] at h
              exact h.symm
            subst he
            exact coerceWalk_wrap _
      · have he : e' = Expr.member o p c := by
          simp [coerceWalk, hr, hs] at h
          exact h.symm
        subst he
        simp [coerceWalk, hr, hs]
  | Expr.call c args, e', h => by
    simp only [coerceWalk, Option.bind_eq_bind, Option.pure_def] at h
    rw [Option.bind_eq_some] at h
    obtain ⟨args', h1, h2⟩ := h
    simp only [Option.some.injEq] at h2
    subst h2
    simp only [coerceWalk, Option.bind_eq_bind, Option.pure_def]
    rw [coerceWalkList_idem args args' h1]
    rfl
  | Expr.binop op l r, e', h => by
    simp only [coerceWalk, Option.bind_eq_bind, Option.pure_def] at h
    rw [Option.bind_eq_some] at h
    obtain ⟨l', h1, h⟩ := h
    rw [Option.bind_eq_some] at h
    obtain ⟨r', h2, h⟩ := h
    simp only [Option.some.injEq] at h
    subst h
    simp only [coerceWalk, Option.bind_eq_bind, Option.pure_def]
    rw [coerceWalk_idem l l' h1, coerceWalk_idem r r' h2]
    rfl
  | Expr.unop op a, e', h => by
    simp only [coerceWalk, Option.bind_eq_bind, Option.pure_def] at h
    rw [Option.bind_eq_some] at h
    obtain ⟨a', h1, h⟩ := h
    simp only [Option.some.injEq] at h
    subst h
    simp only [coerceWalk, Option.bind_eq_bind, Option.pure_def]
    rw [coerceWalk_idem a a' h1]
    rfl
theorem coerceWalkList_idem : ∀ (es es' : ExprList), coerceWalkList es = some es' → coerceWalkList es' = some es'
  | ExprList.nil, es', h => by
    have he : es' = ExprList.nil := by simp [coerceWalkList] at h; exact h.symm
    subst he
    rfl
  | ExprList.cons e rest, es', h => by
    simp only [coerceWalkList, Option.bind_eq_bind, Option.pure_def] at h
    rw [Option.bind_eq_some] at h
    obtain ⟨e', h1, h⟩ := h
    rw [Option.bind_eq_some] at h
    obtain ⟨rest', h2, h⟩ := h
    simp only [Option.some.injEq] at h
    subst h
    simp only [coerceWalkList, Option.bind_eq_bind, Option.pure_def]
    rw [coerceWalk_idem e e' h1, coerceWalkList_idem rest rest' h2]
    rfl
end

theorem strMkData : ∀ (s : String), String.mk s.data = s
  | ⟨_⟩ => rfl

theorem isPrefixOf_self : ∀ (l : List Char), l.isPrefixOf l = true := by
  intro l
  induction l with
  | nil => simp [List.isPrefixOf]
  | cons c cs ih => simp [List.isPrefixOf, ih]

theorem isPrefixOf_append_self (l t : List Char) : l.isPrefixOf (l ++ t) = true := by
  induction l with
  | nil => simp [List.isPrefixOf]
  | cons c cs ih => simp [List.isPrefixOf, ih]

theorem getSubstitution_id (m : String) :
    ∀ cs : List Char, dollarFreeL cs = true → getSubstitution m cs = cs
  | [], _ => rfl
  | [_], _ => rfl
  | c :: d :: rest, h => by
    have hc : ¬ c = '$' := by
      simp only [dollarFreeL, List.all_cons, Bool.and_eq_true, bne_iff_ne, ne_eq] at h
      exact h.1
    have htail : dollarFreeL (d :: rest) = true := by
      simp only [dollarFreeL, List.all_cons, Bool.and_eq_true] at h ⊢
      exact h.2
    simp only [getSubstitution, if_neg hc]
    rw [getSubstitution_id m (d :: rest) htail]

theorem dollarFreeL_append (a b : List Char) (ha : dollarFreeL a = true)
    (hb : dollarFreeL b = true) : dollarFreeL (a ++ b) = true := by
  simp only [dollarFreeL, List.all_append, Bool.and_eq_true] at ha hb ⊢
  exact ⟨ha, hb⟩

theorem dollarFreeL_dupStr : ∀ d : Nat, dollarFreeL (dupStr d ".parent()").data = true
  | 0 => rfl
  | d + 1 => by
    show dollarFreeL ((".parent()" : String) ++ dupStr d ".parent()").data = true
    rw [String.data_append]
    exact dollarFreeL_append _ _ (by decide) (dollarFreeL_dupStr d)

theorem refReplacement_record_none (matched V : String) (d : Nat)
    (hV : dollarFreeL V.data = true) :
    refReplacement matched (refRecord V (Int.ofNat d)) none
      = some (V ++ dupStr d ".parent()") := by
  have hfree : dollarFreeL (V.data ++ (dupStr d ".parent()").data) = true :=
    dollarFreeL_append _ _ hV (dollarFreeL_dupStr d)
  simp [refReplacement, refRecord, mkObj2, jvGet, JFields.lookup, jvToString,
    jsToInteger]
  rw [getSubstitution_id matched _ hfree]
  rw [show V.data ++ (dupStr d ".parent()").data = (V ++ dupStr d ".parent()").data from
    (String.data_append _ _).symm]

theorem refReplacement_record_kw (matched V : String) (d : Nat) (kw : String)
    (hkw : dollarFreeL kw.data = true) :
    refReplacement matched (refRecord V (Int.ofNat d)) (some kw)
      = some (kw ++ dupStr d ".parent()") := by
  have hfree : dollarFreeL (kw.data ++ (dupStr d ".parent()").data) = true :=
    dollarFreeL_append _ _ hkw (dollarFreeL_dupStr d)
  simp [refReplacement, refRecord, mkObj2, jvGet, JFields.lookup, jsToInteger]
  rw [getSubstitution_id matched _ hfree]
  rw [show kw.data ++ (dupStr d ".parent()").data = (kw ++ dupStr d ".parent()").data from
    (String.data_append _ _).symm]

theorem refScan_token (nm : List Char) (ref : JV) (fuel : Nat) :
    refScan nm ref (fuel + 2) ('^' :: nm)
      = (refReplacement (String.mk ('^' :: nm)) ref none).map (fun r => r.data) := by
  have hpre : ('^' :: nm).isPrefixOf ('^' :: nm) = true := isPrefixOf_self _
  have hdrop : ('^' :: nm).drop ('^' :: nm).length = ([] : List Char) := List.drop_length _
  simp only [refScan, hpre, if_true, hdrop, kwSplit]
  rcases refReplacement (String.mk ('^' :: nm)) ref none with _ | r <;>
    simp [List.isPrefixOf]

theorem refScan_token_next (nm : List Char) (ref : JV) (fuel : Nat) :
    refScan nm ref (fuel + 2) (('^' :: nm) ++ "(next)".data)
      = (refReplacement (String.mk ('^' :: nm) ++ "(" ++ "next" ++ ")") ref
          (some "next")).map (fun r => r.data) := by
  have hpre : ('^' :: nm).isPrefixOf (('^' :: nm) ++ "(next)".data) = true :=
    isPrefixOf_append_self _ _
  have hdrop : (('^' :: nm) ++ "(next)".data).drop ('^' :: nm).length = "(next)".data :=
    List.drop_left _ _
  have hkw : kwSplit "(next)".data = some ("next", []) := by decide
  rw [show ('^' :: nm) ++ "(next)".data = '^' :: (nm ++ "(next)".data) from rfl] at hpre hdrop ⊢
  simp only [refScan, hpre, if_true, hdrop, hkw]
  rcases refReplacement (String.mk ('^' :: nm) ++ "(" ++ "next" ++ ")") ref
      (some "next") with _ | r <;> simp

theorem refScan_token_prev (nm : List Char) (ref : JV) (fuel : Nat) :
    refScan nm ref (fuel + 2) (('^' :: nm) ++ "(prev)".data)
      = (refReplacement (String.mk ('^' :: nm) ++ "(" ++ "prev" ++ ")") ref
          (some "prev")).map (fun r => r.data) := by
  have hpre : ('^' :: nm).isPrefixOf (('^' :: nm) ++ "(prev)".data) = true :=
    isPrefixOf_append_self _ _
  have hdrop : (('^' :: nm) ++ "(prev)".data).drop ('^' :: nm).length = "(prev)".data :=
    List.drop_left _ _
  have hkw : kwSplit "(prev)".data = some ("prev", []) := by decide
  rw [show ('^' :: nm) ++ "(prev)".data = '^' :: (nm ++ "(prev)".data) from rfl] at hpre hdrop ⊢
  simp only [refScan, hpre, if_true, hdrop, hkw]
  rcases refReplacement (String.mk ('^' :: nm) ++ "(" ++ "prev" ++ ")") ref
      (some "prev") with _ | r <;> simp

theorem replaceRefs_plainToken (name V : String) (d : Nat)
    (hV : dollarFreeL V.data = true) :
    replaceRefs ("^" ++ name) (mkObj1 ".refs" (mkObj1 name (refRecord V (Int.ofNat d))))
      = some (V ++ dupStr d ".parent()") := by
  have hdata : ("^" ++ name).data = '^' :: name.data := by
    simp [String.data_append]
  simp only [replaceRefs, mkObj1, jvGet, JFields.lookup, reduceIte, Option.getD,
    jvEntries, Option.bind_eq_bind, Option.pure_def]
  simp only [Option.some_bind]
  simp only [jvEntries.fieldEntries]
  simp only [replaceRefs.refsLoop, hdata]
  rw [show ('^' :: name.data).length + 1 = name.data.length + 2 by simp]
  rw [refScan_token name.data _ name.data.length]
  rw [refReplacement_record_none (String.mk ('^' :: name.data)) V d hV]
  rfl

theorem replaceRefs_prevToken (name V : String) (d : Nat) :
    replaceRefs ("^" ++ name ++ "(prev)")
        (mkObj1 ".refs" (mkObj1 name (refRecord V (Int.ofNat d))))
      = some ("prev" ++ dupStr d ".parent()") := by
  have hdata : ("^" ++ name ++ "(prev)").data = '^' :: (name.data ++ "(prev)".data) := by
    simp [String.data_append]
  simp only [replaceRefs, mkObj1, jvGet, JFields.lookup, reduceIte, Option.getD,
    jvEntries, Option.bind_eq_bind, Option.pure_def]
  simp only [Option.some_bind]
  simp only [jvEntries.fieldEntries]
  simp only [replaceRefs.refsLoop, hdata]
  rw [show ('^' :: (name.data ++ "(prev)".data)).length + 1 = (name.data.length + 6) + 2 by
    simp]
  rw [show ('^' :: (name.data ++ "(prev)".data)) = ('^' :: name.data) ++ "(prev)".data from rfl]
  rw [refScan_token_prev name.data _ (name.data.length + 6),
    refReplacement_record_kw (String.mk ('^' :: name.data) ++ "(" ++ "prev" ++ ")")
      V d "prev" (by decide)]
  rfl

theorem replaceRefs_nextToken (name V : String) (d : Nat) :
    replaceRefs ("^" ++ name ++ "(next)")
        (mkObj1 ".refs" (mkObj1 name (refRecord V (Int.ofNat d))))
      = some ("next" ++ dupStr d ".parent()") := by
  have hdata : ("^" ++ name ++ "(next)").data = '^' :: (name.data ++ "(next)".data) := by
    simp [String.data_append]
  simp only [replaceRefs, mkObj1, jvGet, JFields.lookup, reduceIte, Option.getD,
    jvEntries, Option.bind_eq_bind, Option.pure_def]
  simp only [Option.some_bind]
  simp only [jvEntries.fieldEntries]
  simp only [replaceRefs.refsLoop, hdata]
  rw [show ('^' :: (name.data ++ "(next)".data)).length + 1 = (name.data.length + 6) + 2 by
    simp]
  rw [show ('^' :: (name.data ++ "(next)".data)) = ('^' :: name.data) ++ "(next)".data from rfl]
  rw [refScan_token_next name.data _ (name.data.length + 6),
    refReplacement_record_kw (String.mk ('^' :: name.data) ++ "(" ++ "next" ++ ")")
      V d "next" (by decide)]
  rfl

/-! ### Soundness of the driver and option-resolution lemmas -/

mutual
theorem parse_sound : ∀ (fuel : Nat) (rules options t' : JV),
    parse fuel rules options = some t' →
    noSpecialJV t' = true ∧ Compiles fuel options rules t'
  | fuel, JV.jobj fs, options, t', h => by
    simp only [parse, Option.bind_eq_bind, Option.pure_def] at h
    rw [Option.bind_eq_some] at h
    obtain ⟨⟨o, st⟩, hgo, h⟩ := h
    rw [Option.bind_eq_some] at h
    obtain ⟨fs', hpf, h⟩ := h
    simp only [Option.some.injEq] at h
    subst h
    obtain ⟨hns, hcf⟩ := parseFields_sound fuel o fs fs' hpf
    exact ⟨hns, Compiles.obj fuel options fs o st fs' hgo hcf⟩
  | fuel, JV.jarr es, options, t', h => by
    simp only [parse, Option.bind_eq_bind, Option.pure_def] at h
    rw [Option.bind_eq_some] at h
    obtain ⟨⟨o, st⟩, hgo, h⟩ := h
    rw [Option.bind_eq_some] at h
    obtain ⟨es', hpe, h⟩ := h
    simp only [Option.some.injEq] at h
    subst h
    obtain ⟨hns, hce⟩ := parseElems_sound fuel o es es' hpe
    exact ⟨hns, Compiles.arr fuel options es o st es' hgo hce⟩
  | fuel, JV.jnull, options, t', h => by simp [parse] at h
  | fuel, JV.jundef, options, t', h => by simp [parse] at h
  | fuel, JV.jstr s, options, t', h => by
    simp only [parse, Option.bind_eq_bind, Option.pure_def] at h
    rw [Option.bind_eq_some] at h
    obtain ⟨⟨o, st⟩, hgo, h⟩ := h
    by_cases hs : s = ""
    · subst hs
      simp only [reduceIte, Option.some.injEq] at h
      subst h
      exact ⟨rfl, Compiles.emptyStr fuel options⟩
    · simp [hs] at h
  | fuel, JV.jnum n, options, t', h => by
    simp only [parse, Option.bind_eq_bind, Option.pure_def] at h
    rw [Option.bind_eq_some] at h
    obtain ⟨⟨o, st⟩, hgo, h⟩ := h
    simp only [Option.some.injEq] at h
    subst h
    exact ⟨rfl, Compiles.num fuel options n⟩
  | fuel, JV.jbool b, options, t', h => by
    simp only [parse, Option.bind_eq_bind, Option.pure_def] at h
    rw [Option.bind_eq_some] at h
    obtain ⟨⟨o, st⟩, hgo, h⟩ := h
    simp only [Option.some.injEq] at h
    subst h
    exact ⟨rfl, Compiles.bool fuel options b⟩
theorem parseFields_sound : ∀ (fuel : Nat) (o : JV) (fs fs' : JFields),
    parseFields fuel o fs = some fs' →
    noSpecialFields fs' = true ∧ CompFields fuel o fs fs'
  | fuel, o, JFields.nil, fs', h => by
    simp [parseFields] at h
    subst h
    exact ⟨rfl, CompFields.nil fuel o⟩
  | fuel, o, JFields.cons k v rest, fs', h => by
    by_cases hk : SPECIAL_KEYS.contains k = true
    · simp only [parseFields, hk, if_true] at h
      obtain ⟨hns, hcf⟩ := parseFields_sound fuel o rest fs' h
      exact ⟨hns, CompFields.special fuel o k v rest fs' hk hcf⟩
    · have hkf : SPECIAL_KEYS.contains k = false := by simpa using hk
      simp only [parseFields, hkf, Bool.false_eq_true, if_false,
        Option.bind_eq_bind, Option.pure_def] at h
      rw [Option.bind_eq_some] at h
      obtain ⟨v', hv, h⟩ := h
      rw [Option.bind_eq_some] at h
      obtain ⟨rest', hrest, h⟩ := h
      simp only [Option.some.injEq] at h
      subst h
      obtain ⟨hnsr, hcfr⟩ := parseFields_sound fuel o rest rest' hrest
      cases v with
      | jobj gs =>
        obtain ⟨hns, hc⟩ := parse_sound fuel (JV.jobj gs) o v' hv
        exact ⟨by simp only [noSpecialFields, hkf, Bool.not_false, Bool.true_and, hns, hnsr, Bool.and_self],
          CompFields.node fuel o k (JV.jobj gs) v' rest rest' hkf rfl hc hcfr⟩
      | jarr gs =>
        obtain ⟨hns, hc⟩ := parse_sound fuel (JV.jarr gs) o v' hv
        exact ⟨by simp only [noSpecialFields, hkf, Bool.not_false, Bool.true_and, hns, hnsr, Bool.and_self],
          CompFields.node fuel o k (JV.jarr gs) v' rest rest' hkf rfl hc hcfr⟩
      | jnull => simp [parse] at hv
      | jstr s =>
        replace hv : Option.map JV.jstr (compile fuel o s) = some v' := hv
        rw [Option.map_eq_some'] at hv
        obtain ⟨c, hcomp, hv⟩ := hv
        subst hv
        exact ⟨by simp only [noSpecialFields, hkf, Bool.not_false, Bool.true_and, noSpecialJV, hnsr, Bool.and_self],
          CompFields.strLeaf fuel o k s c rest rest' hkf hcomp hcfr⟩
      | jnum n =>
        replace hv : some (JV.jnum n) = some v' := hv
        cases hv
        exact ⟨by simp only [noSpecialFields, hkf, Bool.not_false, Bool.true_and, noSpecialJV, hnsr, Bool.and_self],
          CompFields.scalar fuel o k (JV.jnum n) rest rest' hkf rfl hcfr⟩
      | jbool b =>
        replace hv : some (JV.jbool b) = some v' := hv
        cases hv
        exact ⟨by simp only [noSpecialFields, hkf, Bool.not_false, Bool.true_and, noSpecialJV, hnsr, Bool.and_self],
          CompFields.scalar fuel o k (JV.jbool b) rest rest' hkf rfl hcfr⟩
      | jundef =>
        replace hv : some JV.jundef = some v' := hv
        cases hv
        exact ⟨by simp only [noSpecialFields, hkf, Bool.not_false, Bool.true_and, noSpecialJV, hnsr, Bool.and_self],
          CompFields.scalar fuel o k JV.jundef rest rest' hkf rfl hcfr⟩
theorem parseElems_sound : ∀ (fuel : Nat) (o : JV) (es es' : JElems),
    parseElems fuel o es = some es' →
    noSpecialElems es' = true ∧ CompElems fuel o es es'
  | fuel, o, JElems.nil, es', h => by
    simp [parseElems] at h
    subst h
    exact ⟨rfl, CompElems.nil fuel o⟩
  | fuel, o, JElems.cons v rest, es', h => by
    simp only [parseElems, Option.bind_eq_bind, Option.pure_def] at h
    rw [Option.bind_eq_some] at h
    obtain ⟨v', hv, h⟩ := h
    rw [Option.bind_eq_some] at h
    obtain ⟨rest', hrest, h⟩ := h
    simp only [Option.some.injEq] at h
    subst h
    obtain ⟨hnsr, hcer⟩ := parseElems_sound fuel o rest rest' hrest
    cases v with
    | jobj gs =>
      obtain ⟨hns, hc⟩ := parse_sound fuel (JV.jobj gs) o v' hv
      exact ⟨by simp [noSpecialElems, hns, hnsr],
        CompElems.node fuel o (JV.jobj gs) v' rest rest' rfl hc hcer⟩
    | jarr gs =>
      obtain ⟨hns, hc⟩ := parse_sound fuel (JV.jarr gs) o v' hv
      exact ⟨by simp [noSpecialElems, hns, hnsr],
        CompElems.node fuel o (JV.jarr gs) v' rest rest' rfl hc hcer⟩
    | jnull => simp [parse] at hv
    | jstr s =>
      replace hv : Option.map JV.jstr (compile fuel o s) = some v' := hv
      rw [Option.map_eq_some'] at hv
      obtain ⟨c, hcomp, hv⟩ := hv
      subst hv
      exact ⟨by simp [noSpecialElems, noSpecialJV, hnsr],
        CompElems.strLeaf fuel o s c rest rest' hcomp hcer⟩
    | jnum n =>
      replace hv : some (JV.jnum n) = some v' := hv
      cases hv
      exact ⟨by simp [noSpecialElems, noSpecialJV, hnsr],
        CompElems.scalar fuel o (JV.jnum n) rest rest' rfl hcer⟩
    | jbool b =>
      replace hv : some (JV.jbool b) = some v' := hv
      cases hv
      exact ⟨by simp [noSpecialElems, noSpecialJV, hnsr],
        CompElems.scalar fuel o (JV.jbool b) rest rest' rfl hcer⟩
    | jundef =>
      replace hv : some JV.jundef = some v' := hv
      cases hv
      exact ⟨by simp [noSpecialElems, noSpecialJV, hnsr],
        CompElems.scalar fuel o JV.jundef rest rest' rfl hcer⟩
end

theorem lookup_updateWith : ∀ (fs : JFields) (k : String) (f : JV → JV) (d : JV) (k2 : String),
    (fs.updateWith k f d).lookup k2 =
      if k = k2 then
        (match fs.lookup k with
         | some v => some (f v)
         | none => some d)
      else fs.lookup k2
  | JFields.nil, k, f, d, k2 => by
    by_cases h : k = k2 <;> simp [JFields.updateWith, JFields.lookup, h]
  | JFields.cons k0 v0 rest, k, f, d, k2 => by
    by_cases h0 : k0 = k
    · subst h0
      by_cases h2 : k0 = k2 <;> simp [JFields.updateWith, JFields.lookup, h2]
    · by_cases h2 : k0 = k2
      · subst h2
        have hk : ¬(k = k0) := fun hh => h0 hh.symm
        simp [JFields.updateWith, JFields.lookup, h0, hk]
      · simp [JFields.updateWith, JFields.lookup, h0, h2, lookup_updateWith rest k f d k2]

theorem lookup_none_iff : ∀ (fs : JFields) (k : String),
    fs.lookup k = none ↔ k ∉ fs.keys
  | JFields.nil, k => by simp [JFields.lookup, JFields.keys]
  | JFields.cons k0 v0 rest, k => by
    by_cases h : k0 = k
    · subst h
      simp [JFields.lookup, JFields.keys]
    · have hk : ¬(k = k0) := fun hh => h hh.symm
      simp [JFields.lookup, JFields.keys, h, hk, lookup_none_iff rest k]

theorem lookup_mergeInto_not_mem : ∀ (sfs dfs : JFields) (k : String),
    k ∉ sfs.keys → (mergeInto dfs sfs).lookup k = dfs.lookup k
  | JFields.nil, dfs, k, _ => rfl
  | JFields.cons k0 sv rest, dfs, k, hk => by
    simp only [JFields.keys, List.mem_cons, not_or] at hk
    obtain ⟨hk0, hkrest⟩ := hk
    have hk0' : ¬(k0 = k) := fun hh => hk0 hh.symm
    rw [mergeInto, lookup_mergeInto_not_mem rest _ k hkrest, lookup_updateWith]
    simp [hk0']

theorem lookup_mergeInto_mem : ∀ (sfs dfs : JFields) (k : String) (sv : JV),
    sfs.keys.Nodup → sfs.lookup k = some sv →
    (mergeInto dfs sfs).lookup k =
      some (match dfs.lookup k with
            | some dv => mergeJV dv sv
            | none => mergeJV JV.jundef sv)
  | JFields.nil, dfs, k, sv, _, h => by simp [JFields.lookup] at h
  | JFields.cons k0 sv0 rest, dfs, k, sv, hnd, hl => by
    simp only [JFields.keys, List.nodup_cons] at hnd
    obtain ⟨hk0notin, hndrest⟩ := hnd
    by_cases h0 : k0 = k
    · subst h0
      simp [JFields.lookup] at hl
      subst hl
      rw [mergeInto, lookup_mergeInto_not_mem rest _ k0 hk0notin, lookup_updateWith]
      simp only [if_pos rfl]
      rcases dfs.lookup k0 with _ | dv <;> rfl
    · simp only [JFields.lookup, h0, if_false] at hl
      rw [mergeInto, lookup_mergeInto_mem rest _ k sv hndrest hl, lookup_updateWith]
      simp [h0]

theorem keys_updateWith_mem : ∀ (fs : JFields) (k : String) (f : JV → JV) (d : JV) (k2 : String),
    k2 ∈ (fs.updateWith k f d).keys ↔ k2 ∈ fs.keys ∨ k2 = k
  | JFields.nil, k, f, d, k2 => by
    simp [JFields.updateWith, JFields.keys, eq_comm]
  | JFields.cons k0 v0 rest, k, f, d, k2 => by
    by_cases h0 : k0 = k
    · subst h0
      simp only [JFields.updateWith, if_pos rfl, JFields.keys, List.mem_cons]
      tauto
    · simp only [JFields.updateWith, h0, if_false, JFields.keys, List.mem_cons,
        keys_updateWith_mem rest k f d k2]
      tauto

theorem mem_keys_mergeInto : ∀ (sfs dfs : JFields) (k : String),
    k ∈ (mergeInto dfs sfs).keys ↔ k ∈ dfs.keys ∨ k ∈ sfs.keys
  | JFields.nil, dfs, k => by simp [mergeInto, JFields.keys]
  | JFields.cons k0 sv rest, dfs, k => by
    rw [mergeInto, mem_keys_mergeInto rest _ k, keys_updateWith_mem]
    simp only [JFields.keys, List.mem_cons]
    tauto

theorem pickFrom_lookup : ∀ (ks : List String) (fs : JFields) (key : String),
    (pickSpecial.pickFrom ks fs).lookup key =
      if key ∈ ks then fs.lookup key else none
  | [], fs, key => by simp [pickSpecial.pickFrom, JFields.lookup]
  | k0 :: rest, fs, key => by
    rcases h0 : fs.lookup k0 with _ | v
    · simp only [pickSpecial.pickFrom, h0, pickFrom_lookup rest fs key, List.mem_cons]
      by_cases hk : key = k0
      · subst hk
        by_cases hmem : key ∈ rest <;> simp [hmem, h0]
      · simp [hk]
    · simp only [pickSpecial.pickFrom, h0, JFields.lookup, List.mem_cons]
      by_cases hk : k0 = key
      · subst hk
        simp [h0]
      · have hk' : ¬(key = k0) := fun hh => hk hh.symm
        simp [hk, hk', pickFrom_lookup rest fs key]

theorem pickFrom_keys_sub : ∀ (ks : List String) (fs : JFields) (key : String),
    key ∈ (pickSpecial.pickFrom ks fs).keys → key ∈ ks
  | [], fs, key => by simp [pickSpecial.pickFrom, JFields.keys]
  | k0 :: rest, fs, key => by
    rcases h0 : fs.lookup k0 with _ | v
    · simp only [pickSpecial.pickFrom, h0, List.mem_cons]
      intro h
      exact Or.inr (pickFrom_keys_sub rest fs key h)
    · simp only [pickSpecial.pickFrom, h0, JFields.keys, List.mem_cons]
      intro h
      rcases h with h | h
      · exact Or.inl h
      · exact Or.inr (pickFrom_keys_sub rest fs key h)

theorem pickFrom_keys_nodup : ∀ (ks : List String) (fs : JFields), ks.Nodup →
    (pickSpecial.pickFrom ks fs).keys.Nodup
  | [], fs, _ => by simp [pickSpecial.pickFrom, JFields.keys]
  | k0 :: rest, fs, hnd => by
    simp only [List.nodup_cons] at hnd
    obtain ⟨hk0, hrest⟩ := hnd
    rcases h0 : fs.lookup k0 with _ | v
    · simp only [pickSpecial.pickFrom, h0]
      exact pickFrom_keys_nodup rest fs hrest
    · simp only [pickSpecial.pickFrom, h0, JFields.keys, List.nodup_cons]
      exact ⟨fun hmem => hk0 (pickFrom_keys_sub rest fs k0 hmem),
        pickFrom_keys_nodup rest fs hrest⟩


theorem lookup_set : ∀ (fs : JFields) (k : String) (v : JV) (k2 : String),
    (fs.set k v).lookup k2 = if k = k2 then some v else fs.lookup k2
  | JFields.nil, k, v, k2 => by
    by_cases h : k = k2 <;> simp [JFields.set, JFields.lookup, h]
  | JFields.cons k0 v0 rest, k, v, k2 => by
    by_cases h0 : k0 = k
    · subst h0
      by_cases h2 : k0 = k2 <;> simp [JFields.set, JFields.lookup, h2]
    · by_cases h2 : k0 = k2
      · subst h2
        have hk : ¬(k = k0) := fun hh => h0 hh.symm
        simp [JFields.set, JFields.lookup, h0, hk]
      · simp [JFields.set, JFields.lookup, h0, h2, lookup_set rest k v k2]

theorem injectWildcards_preserve : ∀ (ks : List String) (rfs : JFields) (out : JV) (k : String),
    injectWildcards (JV.jobj rfs) ks = some out →
    rfs.lookup k = some (JV.jstr "prev") →
    ∃ ofs, out = JV.jobj ofs ∧ ofs.lookup k = some (JV.jstr "prev")
  | [], rfs, out, k, h, hl => by
    simp [injectWildcards] at h
    exact ⟨rfs, h.symm, hl⟩
  | k0 :: rest, rfs, out, k, h, hl => by
    by_cases hd : startsWithDollar k0
    · simp only [injectWildcards, hd, if_true, jvSet, Option.some_bind] at h
      refine injectWildcards_preserve rest _ out k h ?_
      rw [lookup_set]
      by_cases he : k0 = k
      · simp [he]
      · simp [he, hl]
    · simp only [injectWildcards, hd, Bool.false_eq_true, if_false] at h
      exact injectWildcards_preserve rest rfs out k h hl

theorem injectWildcards_hits : ∀ (ks : List String) (refs out : JV) (k : String),
    injectWildcards refs ks = some out →
    k ∈ ks → startsWithDollar k = true →
    ∃ ofs, out = JV.jobj ofs ∧ ofs.lookup k = some (JV.jstr "prev")
  | [], refs, out, k, _, hmem, _ => by simp at hmem
  | k0 :: rest, refs, out, k, h, hmem, hdol => by
    by_cases hd : startsWithDollar k0
    · cases refs with
      | jobj rfs =>
        simp only [injectWildcards, hd, if_true, jvSet, Option.some_bind] at h
        rcases List.mem_cons.mp hmem with he | hmem2
        · subst he
          refine injectWildcards_preserve rest _ out k h ?_
          rw [lookup_set]
          simp
        · exact injectWildcards_hits rest _ out k h hmem2 hdol
      | jundef => simp [injectWildcards, hd, jvSet] at h
      | jnull => simp [injectWildcards, hd, jvSet] at h
      | jbool b => simp [injectWildcards, hd, jvSet] at h
      | jnum n => simp [injectWildcards, hd, jvSet] at h
      | jstr s => simp [injectWildcards, hd, jvSet] at h
      | jarr es => simp [injectWildcards, hd, jvSet] at h
    · simp only [injectWildcards, hd, Bool.false_eq_true, if_false] at h
      rcases List.mem_cons.mp hmem with he | hmem2
      · subst he
        exact absurd hdol (by simpa using hd)
      · exact injectWildcards_hits rest refs out k h hmem2 hdol

theorem expandRefsFields_lookup : ∀ (fs : JFields) (fs2 : JFields) (k : String) (v : JV),
    expandRefsFields fs = some fs2 →
    fs.lookup k = some v →
    ∃ v2, expandRefEntry v = some v2 ∧ fs2.lookup k = some v2
  | JFields.nil, fs2, k, v, _, hl => by simp [JFields.lookup] at hl
  | JFields.cons k0 v0 rest, fs2, k, v, h, hl => by
    simp only [expandRefsFields, Option.bind_eq_bind, Option.pure_def] at h
    rw [Option.bind_eq_some] at h
    obtain ⟨v0', hv0, h⟩ := h
    rw [Option.bind_eq_some] at h
    obtain ⟨rest2, hrest, h⟩ := h
    simp only [Option.some.injEq] at h
    subst h
    by_cases h0 : k0 = k
    · subst h0
      simp [JFields.lookup] at hl
      subst hl
      exact ⟨v0', hv0, by simp [JFields.lookup]⟩
    · simp only [JFields.lookup, h0, if_false] at hl
      obtain ⟨v2, hv2, hlook⟩ := expandRefsFields_lookup rest rest2 k v hrest hl
      exact ⟨v2, hv2, by simp [JFields.lookup, h0, hlook]⟩


theorem expandRefEntry_prev :
    expandRefEntry (JV.jstr "prev")
      = some (JV.jobj (JFields.cons "value" (JV.jstr "prev")
          (JFields.cons "depth" (JV.jnum 0) JFields.nil))) := rfl

/-! ## Claim theorems -/

/-- C3: the claim asserts that for every ref declared as
`{value: V, depth: d}` under `NAME` the token `^NAME` rewrites to `V`
followed by exactly `d` copies of `.parent()` - but the source builds
the replacement with `match.replace(match, ...)`, whose string argument
undergoes ECMAScript replacement-string substitution: declaring the
value `$$` (with depth `0`, whose suffix is `dupStr 0 ".parent()" = ""`)
makes `^m` rewrite to `$`, not to `$$` as the claim requires. -/
theorem c3_refSubstitution_counterexample :
    replaceRefs "^m" (mkObj1 ".refs" (mkObj1 "m" (refRecord "$$" (Int.ofNat 0))))
      = some "$" ∧
    some "$" ≠ some ("$$" ++ dupStr 0 ".parent()") :=
  ⟨by decide, by decide⟩

/-- C3 (amended): for a ref declared as `{value: V, depth: d}` under
`NAME`, provided `V` contains no `$` character (so the source's
replacement-string substitution leaves it untouched), `replaceRefs` maps
the token `^NAME` to `V` followed by exactly `d` copies of `.parent()`
(so depth `0` yields exactly `V` since `dupStr 0 ".parent()" = ""`); the
override forms `^NAME(prev)` / `^NAME(next)` map to the override keyword
in place of `V`, still followed by the same `d` parent-traversal
suffixes, unconditionally, because the keywords contain no `$`. -/
theorem c3_replaceRefs_depth_amended (name V : String) (d : Nat)
    (hV : dollarFreeL V.data = true) :
    replaceRefs ("^" ++ name)
        (mkObj1 ".refs" (mkObj1 name (refRecord V (Int.ofNat d))))
      = some (V ++ dupStr d ".parent()") ∧
    replaceRefs ("^" ++ name ++ "(prev)")
        (mkObj1 ".refs" (mkObj1 name (refRecord V (Int.ofNat d))))
      = some ("prev" ++ dupStr d ".parent()") ∧
    replaceRefs ("^" ++ name ++ "(next)")
        (mkObj1 ".refs" (mkObj1 name (refRecord V (Int.ofNat d))))
      = some ("next" ++ dupStr d ".parent()") :=
  ⟨replaceRefs_plainToken name V d hV, replaceRefs_prevToken name V d,
    replaceRefs_nextToken name V d⟩

/-- Witness for the amended C3 at `NAME = "m"`, `V = "next"`, `d = 2`. -/
theorem c3_replaceRefs_depth_amended_witness :
    dollarFreeL "next".data = true ∧
    replaceRefs ("^" ++ "m")
        (mkObj1 ".refs" (mkObj1 "m" (refRecord "next" (Int.ofNat 2))))
      = some ("next" ++ dupStr 2 ".parent()") :=
  ⟨by decide, (c3_replaceRefs_depth_amended "m" "next" 2 (by decide)).1⟩

/-- C2: the claim says `replaceFunctions` fails with an "undefined
function" error naming the callee when the callee matches no declared
function, no registered function and no built-in; the code has no such
branch - its `walkValue` falls through to the child walk and the call is
returned verbatim.  The repository's own test suite expects
`replaceFunctions('doesNotExist()', {'.functions': {}})` to throw
`/ has not been defined/`, so the code contradicts its own tests: this
theorem evaluates the embedded `replaceFunctions` at that failing input
and shows it returns the call unchanged instead of failing. -/
theorem c2_undefinedFunction_returns_unchanged :
    replaceFunctions 9 optsNoFns (Expr.call (Expr.ident "doesNotExist") ExprList.nil)
      = some (Expr.call (Expr.ident "doesNotExist") ExprList.nil) := by decide

/-- C4: value coercion is idempotent - whenever `coerceVal` produces an
output at all (the source can throw a `TypeError` inside
`hasCallExpressionIdentifier` on inputs such as `next[foo()]`), running
it again on that output reproduces it unchanged.  The string round trip
between the two applications is the print/parse pair, which the
embedding treats as the identity on expression trees. -/
theorem c4_coerceVal_idempotent (e e' : Expr) (h : coerceVal e = some e') :
    coerceVal e' = some e' :=
  coerceWalk_idem e e' h

/-- Witness for C4 at `x = next`: coercion wraps it to `next.val()` and
a second application leaves `next.val()` unchanged. -/
theorem c4_coerceVal_idempotent_witness :
    coerceVal (Expr.ident "next") = some (wrapVal (Expr.ident "next")) ∧
      coerceVal (wrapVal (Expr.ident "next")) = some (wrapVal (Expr.ident "next")) :=
  ⟨by decide, c4_coerceVal_idempotent (Expr.ident "next") (wrapVal (Expr.ident "next")) (by decide)⟩

/-- C5: function inlining substitutes call arguments for parameter
identifiers by position - inlining `complex(1,2,3)` against
`complex(a,b,c): next === a && prev == b || c === b` yields
`next === 1 && prev == 2 || 3 === 2` - and `walkFn` never substitutes an
identifier sitting in a non-computed property position. -/
theorem c5_substitution_by_position :
    replaceFunctions 9 optsComplex callComplex = some inlinedComplex ∧
      ∀ (argNames : List JV) (args : ExprList) (o p : Expr),
        substFn argNames args (Expr.member o p false)
          = Expr.member (substFn argNames args o) p false := by
  constructor
  · decide
  · intro argNames args o p
    simp [substFn]

/-- C6: nested declared-function calls resolve transitively - with
`b(snapshot): isString(snapshot)` and `isString(snapshot):
snapshot.isString()` both declared, inlining `b(prev)` produces exactly
`prev.isString()`, with no residual call to either `b` or `isString`
(arguments and function bodies are both inlined before substitution). -/
theorem c6_nested_inlining :
    replaceFunctions 9 optsNested
        (Expr.call (Expr.ident "b") (ExprList.cons (Expr.ident "prev") ExprList.nil))
      = some (Expr.call (Expr.member (Expr.ident "prev") (Expr.ident "isString") false)
          ExprList.nil) := by decide

/-- C7: child-syntax desugaring rewrites snapshot-rooted access chains
into chained child lookups: `next.foo.bar` and `next['foo']['bar']`
both become `next.child('foo').child('bar')`, and the runtime index in
`next[$foo]` becomes the identifier argument in `next.child($foo)` (not
a string literal). -/
theorem c7_child_syntax :
    replaceChildSyntax astNextFooBar = astNextChildFooChildBar ∧
      replaceChildSyntax astNextFooBarBrackets = astNextChildFooChildBar ∧
        replaceChildSyntax astNextDollarFoo = astNextChildDollarFoo := by
  refine ⟨by decide, by decide, by decide⟩

/-- C9: value coercion never wraps the callee of a call expression - the
walk rebuilds a call from its coerced arguments with the callee passed
through untouched - and in particular `next.hasChild()` is returned
entirely unchanged. -/
theorem c9_coerce_skips_callee :
    (∀ (c : Expr) (args : ExprList),
        coerceVal (Expr.call c args)
          = Option.map (fun args' => Expr.call c args') (coerceWalkList args)) ∧
      coerceVal astNextHasChild = some astNextHasChild := by
  constructor
  · intro c args
    simp only [coerceVal, coerceWalk, Option.bind_eq_bind, Option.pure_def]
    rcases coerceWalkList args with _ | args' <;> rfl
  · decide

/-- C10: value coercion skips any snapshot-rooted member expression
whose subtree contains a `val` call anywhere - not only when the chain
itself ends in `.val()`; in particular the chain is returned entirely
unwrapped.  The witness instantiates this at `next[prev.val()]`, whose
`val` call sits inside the computed index. -/
theorem c10_coerce_skips_val_subtree (o p : Expr) (c : Bool) (n : String)
    (hr : getMemberExpressionRootName (Expr.member o p c) = some n)
    (hs : isSnapshotName n = true)
    (hv : hasCEI "val" (Expr.member o p c) = some true) :
    coerceVal (Expr.member o p c) = some (Expr.member o p c) := by
  simp [coerceVal, coerceWalk, hr, hs, hv]

/-- Witness for C10 at `next[prev.val()]`. -/
theorem c10_coerce_skips_val_subtree_witness :
    coerceVal astNextIdxPrevVal = some astNextIdxPrevVal :=
  c10_coerce_skips_val_subtree (Expr.ident "next")
    (Expr.call (Expr.member (Expr.ident "prev") (Expr.ident "val") false) ExprList.nil)
    true "next" (by decide) (by decide) (by decide)

/-- C1 (counterexample): the claim says an implicit wildcard ref is
injected "unless a ref of that name is already explicitly declared, in
which case the explicit declaration's value is kept unchanged".  Here
the inherited options explicitly declare the ref `$m` with value
`next`, the parent node has the wildcard child `$m`, and `getOptions`
nevertheless resolves `$m` to `{value:'prev', depth:0}`: the injection
`refs[key] = 'prev'` is unconditional and the explicit value `next` is
not kept. -/
theorem c1_wildcard_counterexample :
    getOptions (JV.jobj JFields.nil) wildcardClashOptions
        = some (wildcardClashResolved, JV.jobj JFields.nil) ∧
      refsEntry wildcardClashResolved "$m" = some (refRecord "prev" 0) ∧
        JV.jstr "prev" ≠ JV.jstr "next" := by
  refine ⟨by decide, by decide, by decide⟩

/-- C1 (amended): in option-scope resolution, when the inherited options
carry a parent node, for every immediate child key of that parent that
begins with `$`, `getOptions` writes `refs[key] = 'prev'`
unconditionally - overwriting any same-named explicit declaration,
inherited or node-local - and ref expansion then turns the entry into
`{value: 'prev', depth: 0}`.  (The hypothesis that the processed node
itself carries no `.parent` key matches every call site: rule documents
do not contain the key, it is only set on options records.) -/
theorem c1_wildcardRef_amended (rules options o stripped : JV) (pfs : JFields) (k : String)
    (h : getOptions rules options = some (o, stripped))
    (hp : optJVLookup options ".parent" = some (JV.jobj pfs))
    (hr : optJVLookup rules ".parent" = none)
    (hk : k ∈ pfs.keys) (hd : startsWithDollar k = true) :
    refsEntry o k = some (JV.jobj (JFields.cons "value" (JV.jstr "prev")
      (JFields.cons "depth" (JV.jnum 0) JFields.nil))) := by
  -- options is an object
  cases options with
  | jobj ofs => ?_
  | jundef => simp [optJVLookup] at hp
  | jnull => simp [optJVLookup] at hp
  | jbool b => simp [optJVLookup] at hp
  | jnum n => simp [optJVLookup] at hp
  | jstr s => simp [optJVLookup] at hp
  | jarr es => simp [optJVLookup] at hp
  simp only [optJVLookup] at hp
  -- the merged options object
  have hm : mergeJV (mergeJV (mergeJV (JV.jobj JFields.nil) optionDefaults)
      (JV.jobj (pickSpecial (JV.jobj ofs)))) (JV.jobj (pickSpecial rules))
      = JV.jobj (mergeInto (mergeInto (mergeInto JFields.nil
          (JFields.cons ".functions" (JV.jobj JFields.nil)
            (JFields.cons ".refs" (JV.jobj JFields.nil) JFields.nil)))
          (pickSpecial (JV.jobj ofs))) (pickSpecial rules)) := rfl
  -- the parent field of the merged object
  have hsp : (pickSpecial rules).lookup ".parent" = none := by
    cases rules with
    | jobj rfs =>
      simp only [optJVLookup] at hr
      simp only [pickSpecial, pickFrom_lookup, SPECIAL_KEYS]
      simp [hr]
    | jundef => rfl
    | jnull => rfl
    | jbool b => rfl
    | jnum n => rfl
    | jstr s => rfl
    | jarr es => rfl
  have hspo : (pickSpecial (JV.jobj ofs)).lookup ".parent" = some (JV.jobj pfs) := by
    simp only [pickSpecial, pickFrom_lookup, SPECIAL_KEYS]
    simp [hp]
  have hndo : (pickSpecial (JV.jobj ofs)).keys.Nodup := by
    apply pickFrom_keys_nodup
    decide
  have hbase : (mergeInto JFields.nil
      (JFields.cons ".functions" (JV.jobj JFields.nil)
        (JFields.cons ".refs" (JV.jobj JFields.nil) JFields.nil))).lookup ".parent"
      = none := by decide
  have hpar : (mergeInto (mergeInto (mergeInto JFields.nil
      (JFields.cons ".functions" (JV.jobj JFields.nil)
        (JFields.cons ".refs" (JV.jobj JFields.nil) JFields.nil)))
      (pickSpecial (JV.jobj ofs))) (pickSpecial rules)).lookup ".parent"
      = some (JV.jobj (mergeInto JFields.nil pfs)) := by
    rw [lookup_mergeInto_not_mem _ _ _ ((lookup_none_iff _ _).mp hsp)]
    rw [lookup_mergeInto_mem _ _ _ _ hndo hspo]
    rw [hbase]
    rfl
  -- unfold getOptions
  simp only [getOptions, Option.bind_eq_bind, Option.pure_def] at h
  rw [hm] at h
  simp only [mergedField, hpar, Option.getD_some] at h
  have htr : jvTruthy (JV.jobj (mergeInto JFields.nil pfs)) = true := rfl
  simp only [htr, if_true, jvKeys] at h
  rw [Option.bind_eq_some] at h
  obtain ⟨st, hst, h⟩ := h
  rw [Option.bind_eq_some] at h
  obtain ⟨refs1, hinj, h⟩ := h
  rw [Option.bind_eq_some] at h
  obtain ⟨refs2, hexp, h⟩ := h
  rw [Option.bind_eq_some] at h
  obtain ⟨fns2, hfns, h⟩ := h
  simp only [Option.some.injEq, Prod.mk.injEq] at h
  obtain ⟨ho, hstripped⟩ := h
  subst ho
  -- the wildcard key was written
  have hk2 : k ∈ (mergeInto JFields.nil pfs).keys :=
    (mem_keys_mergeInto pfs JFields.nil k).mpr (Or.inr hk)
  obtain ⟨ofs1, hrefs1, hlk⟩ := injectWildcards_hits _ _ _ k hinj hk2 hd
  subst hrefs1
  -- and survives expansion
  simp only [expandRefs] at hexp
  rw [Option.map_eq_some'] at hexp
  obtain ⟨ofs2, hexp2, hrefs2⟩ := hexp
  subst hrefs2
  obtain ⟨v2, hv2, hlook2⟩ := expandRefsFields_lookup ofs1 ofs2 k _ hexp2 hlk
  rw [expandRefEntry_prev] at hv2
  simp only [Option.some.injEq] at hv2
  subst hv2
  simp [refsEntry, mergedField, JFields.lookup, hlook2]

/-- Witness for C1 (amended) at the counterexample input. -/
theorem c1_wildcardRef_amended_witness :
    getOptions (JV.jobj JFields.nil) wildcardClashOptions
        = some (wildcardClashResolved, JV.jobj JFields.nil) ∧
      refsEntry wildcardClashResolved "$m" = some (refRecord "prev" 0) :=
  ⟨by decide,
    c1_wildcardRef_amended (JV.jobj JFields.nil) wildcardClashOptions
      wildcardClashResolved (JV.jobj JFields.nil)
      (JFields.cons "$m" (JV.jobj JFields.nil) JFields.nil) "$m"
      (by decide) (by decide) (by decide) (by decide) (by decide)⟩

/-- C8: after `parse` returns, no node anywhere in the resulting tree
retains any of the special keys `.functions`, `.refs` or `.parent`, and
the result stands in the `Compiles` correspondence with the input: at
every node the options are the ones `getOptions` resolved there, and
every key that held a string value now holds the output of the
five-pass `compile` chain on the original value. -/
theorem c8_parse_invariant (fuel : Nat) (rules options t' : JV)
    (h : parse fuel rules options = some t') :
    noSpecialJV t' = true ∧ Compiles fuel options rules t' :=
  parse_sound fuel rules options t' h

/-- Witness for C8 at the tree `{'.read': 'next'}`, which compiles to
`{'.read': 'newData.val()'}`. -/
theorem c8_parse_invariant_witness :
    parse 9 treeSimple (JV.jobj JFields.nil) = some treeSimpleCompiled ∧
      (noSpecialJV treeSimpleCompiled = true ∧
        Compiles 9 (JV.jobj JFields.nil) treeSimple treeSimpleCompiled) :=
  ⟨by decide,
    c8_parse_invariant 9 treeSimple (JV.jobj JFields.nil) treeSimpleCompiled (by decide)⟩

end Butane
